import Mathlib

/-!
Verification of the ephileo agent core against its specification.

The development shallowly embeds the TypeScript sources:
  * `core/src/tools/registry.ts` — tool registry with permission gating
  * `core/src/agent/loop.ts`     — the bounded agent turn loop
  * `core/src/llm/client.ts`     — tool-call assembly and the think-tag
    splitter used for live token display
  * `core/src/tools/edit.ts`     — the pure `applyEdit` string editor

Conventions of the embedding:
  * JavaScript promises that can throw are modelled as outcome types with
    explicit `abort` (UserAbortError) and `error` (any other thrown value,
    carrying its message) constructors.
  * Host primitives (`JSON.parse`, `JSON.stringify`) are parameters of the
    definitions that use them, since they are not code of this repository.
  * Mutable fields read at call time (permission level, confirmation
    callback, the abort signal) are explicit state; the abort signal is an
    oracle giving the value of `signal.aborted` at each successive read.
  * To make "the handler was (never) invoked" provable, execution returns a
    trace that records every handler and confirmation-callback invocation
    together with its arguments; the trace is a ghost observation and does
    not influence control flow.
-/

namespace Ephileo

/-- Tool arguments: the `Record<string, unknown>` argument maps, flattened to
ordered key/value pairs (claims never inspect the value structure). -/
abbrev Args := List (String × String)

/-- Outcome of a tool handler (`Promise<string>` that may throw):
a result string, a thrown non-abort error, or a thrown `UserAbortError`. -/
inductive HandlerOutcome where
  | ok (result : String)
  | error (message : String)
  | abort
deriving DecidableEq

/-- Outcome of a confirmation callback (`Promise<boolean>` that may throw). -/
inductive ConfirmResult where
  | ok (approved : Bool)
  | error (message : String)
  | abort
deriving DecidableEq

/-- Permission groups of `registry.ts` (`ConfirmationGroup`). -/
inductive ConfirmationGroup where
  | read
  | write
  | none
deriving DecidableEq

/-- Permission levels of `registry.ts` (`PermissionLevel`). -/
inductive PermissionLevel where
  | writeOnly
  | readAndWrite
  | autoAccept
deriving DecidableEq

/-- `ToolRegistration` of `registry.ts`. The JSON-schema `parameters` field is
kept as an opaque string (no claim inspects it). -/
structure ToolRegistration where
  name : String
  description : String := ""
  parameters : String := ""
  handler : Args → HandlerOutcome
  requiresConfirmation : Option Bool := Option.none
  confirmationGroup : Option ConfirmationGroup := Option.none

/-- `ToolDefinition` of `client.ts` (OpenAI-format schema entry);
`type: "function"` is implicit. -/
structure ToolDefinition where
  fname : String
  fdescription : String
  fparameters : String
deriving DecidableEq

/-- The `ToolRegistry` state: the name-keyed tool map (insertion-ordered, as
a JS `Map`), the optional confirmation callback, and the mutable permission
level (default `"write-only"`). -/
structure ToolRegistry where
  tools : List ToolRegistration := []
  confirmationCallback : Option (String → Args → ConfirmResult) := Option.none
  permissionLevel : PermissionLevel := PermissionLevel.writeOnly

/-- `register`: `Map.set` semantics — overwrite in place when the name is
already present (keeping first-insertion order), else append. -/
def ToolRegistry.register (reg : ToolRegistry) (tool : ToolRegistration) : ToolRegistry :=
  if reg.tools.any (fun t => t.name == tool.name) then
    { reg with tools := reg.tools.map (fun t => if t.name == tool.name then tool else t) }
  else
    { reg with tools := reg.tools ++ [tool] }

/-- `setConfirmationCallback`. -/
def ToolRegistry.setConfirmationCallback (reg : ToolRegistry)
    (cb : String → Args → ConfirmResult) : ToolRegistry :=
  { reg with confirmationCallback := some cb }

/-- `setPermissionLevel`. -/
def ToolRegistry.setPermissionLevel (reg : ToolRegistry) (level : PermissionLevel) :
    ToolRegistry :=
  { reg with permissionLevel := level }

/-- `getSchemas`: all tool schemas in registration order. -/
def ToolRegistry.getSchemas (reg : ToolRegistry) : List ToolDefinition :=
  reg.tools.map (fun t => ⟨t.name, t.description, t.parameters⟩)

/-- The group used for gating, registry.ts line 112:
`tool.confirmationGroup ?? (tool.requiresConfirmation ? "write" : "none")`. -/
def effectiveGroup (tool : ToolRegistration) : ConfirmationGroup :=
  tool.confirmationGroup.getD
    (if tool.requiresConfirmation.getD false then ConfirmationGroup.write
     else ConfirmationGroup.none)

/-- `shouldConfirm`, registry.ts lines 110-117. -/
def ToolRegistry.shouldConfirm (reg : ToolRegistry) (tool : ToolRegistration) : Bool :=
  if reg.permissionLevel = PermissionLevel.autoAccept then false
  else
    match effectiveGroup tool with
    | ConfirmationGroup.none => false
    | ConfirmationGroup.write => true
    | ConfirmationGroup.read => reg.permissionLevel = PermissionLevel.readAndWrite

/-- `DENIAL_MESSAGE`, registry.ts lines 48-49. -/
def DENIAL_MESSAGE : String :=
  "User declined to execute this tool. Adjust your approach or ask the user for guidance."

/-- Result of `ToolRegistry.execute`: either a returned string or a propagated
`UserAbortError` (thrown). -/
inductive ExecOutcome where
  | result (s : String)
  | abort
deriving DecidableEq

/-- Ghost-instrumented outcome of one `execute` call: the outcome together
with the argument list of every handler invocation and every confirmation
callback invocation it performed. -/
structure ExecTrace where
  outcome : ExecOutcome
  handlerCalls : List Args
  confirmCalls : List (String × Args)
deriving DecidableEq

/-- The handler try/catch of `execute` (registry.ts lines 97-103): a thrown
`UserAbortError` propagates, any other error becomes an error string. -/
def runHandler (tool : ToolRegistration) (args : Args) (confirms : List (String × Args)) :
    ExecTrace :=
  match tool.handler args with
  | HandlerOutcome.ok s => ⟨ExecOutcome.result s, [args], confirms⟩
  | HandlerOutcome.error m =>
      ⟨ExecOutcome.result ("Error executing " ++ tool.name ++ ": " ++ m), [args], confirms⟩
  | HandlerOutcome.abort => ⟨ExecOutcome.abort, [args], confirms⟩

/-- `execute`, registry.ts lines 81-103. The guard at line 86 is
`shouldConfirm(tool) && confirmationCallback !== undefined`, compiled here as
a simultaneous match on the callback and on `shouldConfirm`. -/
def ToolRegistry.execute (reg : ToolRegistry) (name : String) (args : Args) : ExecTrace :=
  match reg.tools.find? (fun t => t.name == name) with
  | Option.none => ⟨ExecOutcome.result ("Error: unknown tool '" ++ name ++ "'"), [], []⟩
  | some tool =>
    match reg.confirmationCallback, reg.shouldConfirm tool with
    | some cb, true =>
      match cb name args with
      | ConfirmResult.ok true => runHandler tool args [(name, args)]
      | ConfirmResult.ok false => ⟨ExecOutcome.result DENIAL_MESSAGE, [], [(name, args)]⟩
      | ConfirmResult.error m =>
          ⟨ExecOutcome.result ("Error during confirmation for " ++ name ++ ": " ++ m),
            [], [(name, args)]⟩
      | ConfirmResult.abort => ⟨ExecOutcome.abort, [], [(name, args)]⟩
    | _, _ => runHandler tool args []

/-- `listNames`. -/
def ToolRegistry.listNames (reg : ToolRegistry) : List String :=
  reg.tools.map (fun t => t.name)

/-- The confirmation matrix as the spec words it (§3 `PermissionLevel`):
auto-accept never; write-only exactly the write group; read-and-write the
read and write groups; the none group never. Stated over the effective
permission group of a tool. -/
def requiresConfirmationSpec : PermissionLevel → ConfirmationGroup → Bool
  | _, ConfirmationGroup.none => false
  | PermissionLevel.autoAccept, _ => false
  | PermissionLevel.writeOnly, g => g = ConfirmationGroup.write
  | PermissionLevel.readAndWrite, _ => true

/-- Claim C2: `shouldConfirm` agrees with the spec's permission matrix for
every tool and every permission level: auto-accept confirms nothing;
write-only confirms exactly write-group tools; read-and-write confirms read-
and write-group tools; none-group tools are never confirmed. -/
theorem shouldConfirm_matrix (reg : ToolRegistry) (tool : ToolRegistration) :
    reg.shouldConfirm tool = requiresConfirmationSpec reg.permissionLevel (effectiveGroup tool) := by
  unfold ToolRegistry.shouldConfirm requiresConfirmationSpec
  cases h : effectiveGroup tool <;> cases hl : reg.permissionLevel <;> simp [h, hl]

/-- Claim C8: when a confirmation-requiring tool's installed callback denies
(`ok false`), `execute` returns exactly `DENIAL_MESSAGE` and the handler is
never invoked (the handler-invocation trace is empty). -/
theorem execute_denied (reg : ToolRegistry) (name : String) (args : Args)
    (tool : ToolRegistration) (cb : String → Args → ConfirmResult)
    (hfind : reg.tools.find? (fun t => t.name == name) = some tool)
    (hcb : reg.confirmationCallback = some cb)
    (hconf : reg.shouldConfirm tool = true)
    (hdeny : cb name args = ConfirmResult.ok false) :
    reg.execute name args = ⟨ExecOutcome.result DENIAL_MESSAGE, [], [(name, args)]⟩ := by
  simp [ToolRegistry.execute, hfind, hcb, hconf, hdeny]

/-- Demo handler used by concrete witnesses: a write-style tool. -/
def demoHandler : Args → HandlerOutcome := fun _ => HandlerOutcome.ok "wrote file"

/-- A write-group tool registration used by concrete witnesses. -/
def demoWriteTool : ToolRegistration :=
  { name := "write_file"
    description := "Write a file"
    handler := demoHandler
    confirmationGroup := some ConfirmationGroup.write }

/-- Registry holding `demoWriteTool`, default permission level `write-only`,
and no confirmation callback installed. -/
def demoRegistryNoCb : ToolRegistry := ToolRegistry.register {} demoWriteTool

/-- A denying confirmation callback. -/
def denyCb : String → Args → ConfirmResult := fun _ _ => ConfirmResult.ok false

/-- An approving confirmation callback. -/
def approveCb : String → Args → ConfirmResult := fun _ _ => ConfirmResult.ok true

/-- Registry holding `demoWriteTool` with the denying callback installed. -/
def demoRegistryDeny : ToolRegistry :=
  ToolRegistry.setConfirmationCallback (ToolRegistry.register {} demoWriteTool) denyCb

/-- Registry holding `demoWriteTool` with the approving callback installed. -/
def demoRegistryApprove : ToolRegistry :=
  ToolRegistry.setConfirmationCallback (ToolRegistry.register {} demoWriteTool) approveCb

/-- Witness for C8 at a concrete input: the denying registry declines
`write_file` without running its handler. -/
theorem execute_denied_witness :
    demoRegistryDeny.execute "write_file" [] =
      ⟨ExecOutcome.result DENIAL_MESSAGE, [], [("write_file", [])]⟩ :=
  execute_denied demoRegistryDeny "write_file" [] demoWriteTool denyCb rfl rfl rfl rfl

/-- Claim C1 counterexample: with no confirmation callback installed, the
handler of a confirmation-requiring tool runs anyway (registry.ts line 86
gates on `confirmationCallback !== undefined`): for the concrete registry
`demoRegistryNoCb`, `shouldConfirm` is `true`, no callback is installed (so no
approval was ever given), and the permission level does not exempt the tool,
yet the handler is invoked. This refutes the claim's universal safety
invariant as stated. -/
theorem execute_no_callback_runs_handler :
    (demoRegistryNoCb.execute "write_file" []).handlerCalls = [[]] ∧
    demoRegistryNoCb.shouldConfirm demoWriteTool = true ∧
    demoRegistryNoCb.confirmationCallback = Option.none ∧
    demoRegistryNoCb.permissionLevel ≠ PermissionLevel.autoAccept := by
  refine ⟨rfl, rfl, rfl, ?_⟩
  decide

/-- Claim C1 (amended): the handler of a registered tool is invoked only if
the permission level exempts the tool (`shouldConfirm` is false), or no
confirmation callback is installed, or the installed callback explicitly
approved this invocation. -/
theorem execute_safety (reg : ToolRegistry) (name : String) (args : Args)
    (tool : ToolRegistration)
    (hfind : reg.tools.find? (fun t => t.name == name) = some tool)
    (hrun : (reg.execute name args).handlerCalls ≠ []) :
    reg.shouldConfirm tool = false ∨
    reg.confirmationCallback = Option.none ∨
    ∃ cb, reg.confirmationCallback = some cb ∧ cb name args = ConfirmResult.ok true := by
  cases hcb : reg.confirmationCallback with
  | none => exact Or.inr (Or.inl rfl)
  | some cb =>
    cases hconf : reg.shouldConfirm tool with
    | false => exact Or.inl rfl
    | true =>
      cases happ : cb name args with
      | ok b =>
        cases b with
        | true => exact Or.inr (Or.inr ⟨cb, rfl, happ⟩)
        | false => simp [ToolRegistry.execute, hfind, hcb, hconf, happ] at hrun
      | error m => simp [ToolRegistry.execute, hfind, hcb, hconf, happ] at hrun
      | abort => simp [ToolRegistry.execute, hfind, hcb, hconf, happ] at hrun

/-- Witness for the amended C1 at a concrete input: in the approving registry
the handler runs, and the conclusion holds. -/
theorem execute_safety_witness :
    demoRegistryApprove.tools.find? (fun t => t.name == "write_file") = some demoWriteTool ∧
    (demoRegistryApprove.execute "write_file" []).handlerCalls ≠ [] ∧
    (demoRegistryApprove.shouldConfirm demoWriteTool = false ∨
      demoRegistryApprove.confirmationCallback = Option.none ∨
      ∃ cb, demoRegistryApprove.confirmationCallback = some cb ∧
        cb "write_file" [] = ConfirmResult.ok true) :=
  ⟨rfl, by decide,
    execute_safety demoRegistryApprove "write_file" [] demoWriteTool rfl (by decide)⟩

/-! ## Agent loop (`core/src/agent/loop.ts`)

The LLM client is abstracted as an oracle from the model-call index to a
`ChatOutcome` (the response returned by `llm.chat`, or the exception it
threw).  The abort signal, when supplied, is an oracle from the read index to
the value of `signal.aborted` at that read; the loop reads the signal exactly
once before each tool call (loop.ts line 194). -/

/-- Message roles of `client.ts` `ChatMessage`. -/
inductive Role where
  | system
  | user
  | assistant
  | tool
deriving DecidableEq

/-- `ToolCallMessage` of `client.ts` (`type: "function"` implicit). -/
structure ToolCallMessage where
  id : String
  fname : String
  farguments : String
deriving DecidableEq

/-- `ChatMessage` of `client.ts`. -/
structure ChatMessage where
  role : Role
  content : String
  tool_calls : Option (List ToolCallMessage) := Option.none
  tool_call_id : Option String := Option.none
deriving DecidableEq

/-- `ToolCall` of `client.ts`: an assembled tool call with parsed arguments. -/
structure ToolCall where
  id : String
  name : String
  arguments : Args
deriving DecidableEq

/-- `LLMResponse` of `client.ts`. -/
structure LLMResponse where
  content : Option String
  thinking : Option String := Option.none
  toolCalls : List ToolCall
  finishReason : String := "stop"
deriving DecidableEq

/-- Outcome of one `llm.chat` call: a response, a thrown `UserAbortError`,
or any other thrown error. -/
inductive ChatOutcome where
  | ok (response : LLMResponse)
  | abort
  | error (message : String)
deriving DecidableEq

/-- `AgentResult` of `loop.ts`. -/
structure AgentResult where
  response : String
  turns : Nat
  toolsUsed : List String
deriving DecidableEq

/-- How a `runAgentLoop` call ends: normal return, a propagated
`UserAbortError`, or any other propagated error. -/
inductive LoopOutcome where
  | done (result : AgentResult)
  | abort
  | error (message : String)
deriving DecidableEq

/-- The loop's mutable state, plus ghost instrumentation: `chatCalls` counts
`llm.chat` invocations, `signalChecks` counts reads of `signal.aborted`, and
`handlerCalls` records the arguments of every tool-handler invocation. -/
structure LoopState where
  messages : List ChatMessage
  toolsUsed : List String
  chatCalls : Nat
  signalChecks : Nat
  handlerCalls : List Args
deriving DecidableEq

/-- A finished run: the final state (the conversation array is mutated in
place, so it is observable even when the loop throws) and the outcome. -/
structure LoopRun where
  state : LoopState
  outcome : LoopOutcome
deriving DecidableEq

/-- Result of the per-turn tool-execution phase: ran to completion, or was
interrupted by a `UserAbortError` (from the signal check or from `execute`). -/
inductive ToolPhase where
  | completed (st : LoopState)
  | aborted (st : LoopState)
deriving DecidableEq

/-- The state carried by either `ToolPhase` constructor. -/
def ToolPhase.state : ToolPhase → LoopState
  | ToolPhase.completed st => st
  | ToolPhase.aborted st => st

/-- JavaScript `x || d` on an optional string (`null` and `""` are falsy). -/
def orElseStr (c : Option String) (d : String) : String :=
  match c with
  | Option.none => d
  | some s => if s = "" then d else s

/-- `MAX_TURNS`, loop.ts line 141. -/
def MAX_TURNS : Nat := 20

/-- The exhaustion message, loop.ts line 210. -/
def stoppedForSafety : String := "(max turns reached — stopped for safety)"

/-- The placeholder for a null/empty final answer, loop.ts line 171. -/
def noResponse : String := "(no response)"

/-- The assistant message built for a turn with tool calls, loop.ts
lines 178-189 (`JSON.stringify` is the `stringify` parameter). -/
def assistantMsgOf (stringify : Args → String) (resp : LLMResponse) : ChatMessage :=
  { role := Role.assistant
    content := orElseStr resp.content ""
    tool_calls := some (resp.toolCalls.map (fun tc => ⟨tc.id, tc.name, stringify tc.arguments⟩)) }

/-- The tool-role message appended for one executed call, loop.ts
lines 201-205, under the assumption that `execute` returned normally. -/
def toolResultMsg (tools : ToolRegistry) (tc : ToolCall) : ChatMessage :=
  { role := Role.tool
    content :=
      match (tools.execute tc.name tc.arguments).outcome with
      | ExecOutcome.result s => s
      | ExecOutcome.abort => ""
    tool_call_id := some tc.id }

/-- The per-turn tool-execution phase, loop.ts lines 193-206: for each call
in order, read `signal.aborted` (throwing `UserAbortError` when set), record
the tool name, run `ToolRegistry.execute`, and append one tool-role message;
a `UserAbortError` from `execute` propagates. -/
def execTools (tools : ToolRegistry) (signal : Option (Nat → Bool)) :
    List ToolCall → LoopState → ToolPhase
  | [], st => ToolPhase.completed st
  | tc :: rest, st =>
    match signal with
    | some f =>
      let checked : LoopState := { st with signalChecks := st.signalChecks + 1 }
      if f st.signalChecks then ToolPhase.aborted checked
      else execToolStep tools (some f) tc rest checked
    | Option.none => execToolStep tools Option.none tc rest st
where
  /-- One iteration body after the signal check (loop.ts lines 195-205). -/
  execToolStep (tools : ToolRegistry) (signal : Option (Nat → Bool)) (tc : ToolCall)
      (rest : List ToolCall) (st : LoopState) : ToolPhase :=
    let st1 : LoopState := { st with toolsUsed := st.toolsUsed ++ [tc.name] }
    let tr := tools.execute tc.name tc.arguments
    let st2 : LoopState := { st1 with handlerCalls := st1.handlerCalls ++ tr.handlerCalls }
    match tr.outcome with
    | ExecOutcome.abort => ToolPhase.aborted st2
    | ExecOutcome.result s =>
        execTools tools signal rest
          { st2 with
            messages := st2.messages ++
              [{ role := Role.tool, content := s, tool_call_id := some tc.id }] }

/-- The turn loop, loop.ts lines 164-214, de-looped on the remaining turn
budget (`fuel`); `turn` is the current zero-based turn index, so the entry
point calls this with `fuel = maxTurns`, `turn = 0`. -/
def runLoopAux (chat : Nat → ChatOutcome) (tools : ToolRegistry)
    (stringify : Args → String) (signal : Option (Nat → Bool)) (maxTurns : Nat) :
    Nat → Nat → LoopState → LoopRun
  | 0, _, st =>
      ⟨st, LoopOutcome.done ⟨stoppedForSafety, maxTurns, st.toolsUsed⟩⟩
  | fuel + 1, turn, st =>
    let st := { st with chatCalls := st.chatCalls + 1 }
    match chat turn with
    | ChatOutcome.abort => ⟨st, LoopOutcome.abort⟩
    | ChatOutcome.error m => ⟨st, LoopOutcome.error m⟩
    | ChatOutcome.ok resp =>
      if resp.toolCalls = [] then
        ⟨st, LoopOutcome.done ⟨orElseStr resp.content noResponse, turn + 1, st.toolsUsed⟩⟩
      else
        let st := { st with messages := st.messages ++ [assistantMsgOf stringify resp] }
        match execTools tools signal resp.toolCalls st with
        | ToolPhase.aborted st => ⟨st, LoopOutcome.abort⟩
        | ToolPhase.completed st => runLoopAux chat tools stringify signal maxTurns fuel (turn + 1) st

/-- `runAgentLoop`, loop.ts lines 152-214. -/
def runAgentLoop (messages : List ChatMessage) (chat : Nat → ChatOutcome)
    (tools : ToolRegistry) (stringify : Args → String) (maxTurns : Nat)
    (signal : Option (Nat → Bool)) : LoopRun :=
  runLoopAux chat tools stringify signal maxTurns maxTurns 0
    { messages := messages
      toolsUsed := []
      chatCalls := 0
      signalChecks := 0
      handlerCalls := [] }

/-- The loop's state only grows: messages, used-tool names and handler
invocations of the earlier state are a prefix of the later state's. -/
def StateGrows (st st' : LoopState) : Prop :=
  st.messages <+: st'.messages ∧ st.toolsUsed <+: st'.toolsUsed ∧
    st.handlerCalls <+: st'.handlerCalls

theorem stateGrows_refl (st : LoopState) : StateGrows st st :=
  ⟨List.prefix_refl _, List.prefix_refl _, List.prefix_refl _⟩

theorem stateGrows_trans {a b c : LoopState} (h1 : StateGrows a b) (h2 : StateGrows b c) :
    StateGrows a c :=
  ⟨h1.1.trans h2.1, h1.2.1.trans h2.2.1, h1.2.2.trans h2.2.2⟩

theorem execTools_grows (tools : ToolRegistry) (signal : Option (Nat → Bool))
    (tcs : List ToolCall) : ∀ st : LoopState,
    StateGrows st (execTools tools signal tcs st).state := by
  induction tcs with
  | nil => intro st; simp only [execTools, ToolPhase.state]; exact stateGrows_refl st
  | cons tc rest ih =>
    intro st
    have hstep : ∀ st1 : LoopState,
        StateGrows st1 (execTools.execToolStep tools signal tc rest st1).state := by
      intro st1
      have hgrow1 : StateGrows st1
          { st1 with
            toolsUsed := st1.toolsUsed ++ [tc.name]
            handlerCalls := st1.handlerCalls ++
              (tools.execute tc.name tc.arguments).handlerCalls } :=
        ⟨List.prefix_refl _, List.prefix_append _ _, List.prefix_append _ _⟩
      unfold execTools.execToolStep
      cases houtcome : (tools.execute tc.name tc.arguments).outcome with
      | abort => simpa [houtcome, ToolPhase.state] using hgrow1
      | result s =>
        simp only [houtcome]
        refine stateGrows_trans ?_ (ih _)
        exact ⟨List.prefix_append _ _, List.prefix_append _ _, List.prefix_append _ _⟩
    cases signal with
    | none => simp only [execTools]; exact hstep st
    | some f =>
      simp only [execTools]
      cases hf : f st.signalChecks with
      | true => simp only [hf, if_true, ToolPhase.state]; exact stateGrows_refl _
      | false =>
        simp [hf]
        exact hstep { st with signalChecks := st.signalChecks + 1 }

theorem runLoopAux_grows (chat : Nat → ChatOutcome) (tools : ToolRegistry)
    (stringify : Args → String) (signal : Option (Nat → Bool)) (maxTurns : Nat) :
    ∀ (fuel turn : Nat) (st : LoopState),
    StateGrows st (runLoopAux chat tools stringify signal maxTurns fuel turn st).state := by
  intro fuel
  induction fuel with
  | zero => intro turn st; exact stateGrows_refl st
  | succ fuel ih =>
    intro turn st
    simp only [runLoopAux]
    cases chat turn with
    | abort => exact stateGrows_refl _
    | error m => exact stateGrows_refl _
    | ok resp =>
      by_cases hcalls : resp.toolCalls = []
      · simp only [hcalls, if_true]; exact stateGrows_refl _
      · simp only [hcalls, if_false]
        have hmid : StateGrows st
            { st with
              chatCalls := st.chatCalls + 1
              messages := st.messages ++ [assistantMsgOf stringify resp] } :=
          ⟨List.prefix_append _ _, List.prefix_refl _, List.prefix_refl _⟩
        have hexec := execTools_grows tools signal resp.toolCalls
          { st with
            chatCalls := st.chatCalls + 1
            messages := st.messages ++ [assistantMsgOf stringify resp] }
        cases hph : execTools tools signal resp.toolCalls
            { st with
              chatCalls := st.chatCalls + 1
              messages := st.messages ++ [assistantMsgOf stringify resp] } with
        | aborted st2 =>
          rw [hph] at hexec
          exact stateGrows_trans hmid hexec
        | completed st2 =>
          rw [hph] at hexec
          exact stateGrows_trans hmid (stateGrows_trans hexec (ih (turn + 1) st2))

/-- Claim C9: `runAgentLoop` only appends to the conversation array — the
caller's messages are a prefix of the final conversation for every outcome
(normal return, exhaustion, propagated abort or error), so no entry is ever
removed, modified in place, or reordered. -/
theorem runAgentLoop_append_only (messages : List ChatMessage) (chat : Nat → ChatOutcome)
    (tools : ToolRegistry) (stringify : Args → String) (maxTurns : Nat)
    (signal : Option (Nat → Bool)) :
    messages <+:
      (runAgentLoop messages chat tools stringify maxTurns signal).state.messages :=
  (runLoopAux_grows chat tools stringify signal maxTurns maxTurns 0
    { messages := messages
      toolsUsed := []
      chatCalls := 0
      signalChecks := 0
      handlerCalls := [] }).1

/-- Full characterization of the tool phase when no signal is supplied and no
call aborts: it completes, appending one tool-role message per call in call
order, recording each name, and accumulating each call's handler trace. -/
theorem execTools_none_spec (tools : ToolRegistry) (tcs : List ToolCall)
    (htools : ∀ tc ∈ tcs, (tools.execute tc.name tc.arguments).outcome ≠ ExecOutcome.abort) :
    ∀ st : LoopState, execTools tools Option.none tcs st = ToolPhase.completed
      { st with
        messages := st.messages ++ tcs.map (toolResultMsg tools)
        toolsUsed := st.toolsUsed ++ tcs.map (fun tc => tc.name)
        handlerCalls := st.handlerCalls ++
          (tcs.map (fun tc => (tools.execute tc.name tc.arguments).handlerCalls)).flatten } := by
  induction tcs with
  | nil => intro st; simp [execTools]
  | cons tc rest ih =>
    intro st
    have hhd := htools tc (List.mem_cons_self tc rest)
    cases houtcome : (tools.execute tc.name tc.arguments).outcome with
    | abort => exact absurd houtcome hhd
    | result s =>
      have htl : ∀ tc' ∈ rest,
          (tools.execute tc'.name tc'.arguments).outcome ≠ ExecOutcome.abort :=
        fun tc' h => htools tc' (List.mem_cons_of_mem tc h)
      simp only [execTools, execTools.execToolStep, houtcome]
      rw [ih htl]
      congr 1
      simp [toolResultMsg, houtcome, List.map_cons, List.flatten]

/-- Claim C4: with no cancellation signal and no aborting tool, any model
that requests at least one tool call on every turn drives the loop to the
exhaustion outcome: exactly `maxTurns` model calls are made and the result is
the fixed "stopped for safety" message with `turns = maxTurns`. -/
theorem runLoopAux_exhausts (chat : Nat → ChatOutcome) (tools : ToolRegistry)
    (stringify : Args → String) (maxTurns : Nat)
    (hchat : ∀ n, ∃ resp, chat n = ChatOutcome.ok resp ∧ resp.toolCalls ≠ [])
    (htools : ∀ name args, (tools.execute name args).outcome ≠ ExecOutcome.abort) :
    ∀ (fuel turn : Nat) (st : LoopState),
    (runLoopAux chat tools stringify Option.none maxTurns fuel turn st).outcome =
      LoopOutcome.done ⟨stoppedForSafety, maxTurns,
        (runLoopAux chat tools stringify Option.none maxTurns fuel turn st).state.toolsUsed⟩ ∧
    (runLoopAux chat tools stringify Option.none maxTurns fuel turn st).state.chatCalls =
      st.chatCalls + fuel := by
  intro fuel
  induction fuel with
  | zero => intro turn st; exact ⟨rfl, rfl⟩
  | succ fuel ih =>
    intro turn st
    obtain ⟨resp, hch, hne⟩ := hchat turn
    have hexec := execTools_none_spec tools resp.toolCalls
      (fun tc _ => htools tc.name tc.arguments)
      { st with
        chatCalls := st.chatCalls + 1
        messages := st.messages ++ [assistantMsgOf stringify resp] }
    simp only [runLoopAux, hch, hne, if_false, hexec]
    have := ih (turn + 1)
      { st with
        chatCalls := st.chatCalls + 1
        messages := (st.messages ++ [assistantMsgOf stringify resp]) ++
          resp.toolCalls.map (toolResultMsg tools)
        toolsUsed := st.toolsUsed ++ resp.toolCalls.map (fun tc => tc.name)
        handlerCalls := st.handlerCalls ++
          (resp.toolCalls.map
            (fun tc => (tools.execute tc.name tc.arguments).handlerCalls)).flatten }
    refine ⟨this.1, ?_⟩
    rw [this.2]
    show st.chatCalls + 1 + fuel = st.chatCalls + (fuel + 1)
    omega

/-- Claim C4, at the `runAgentLoop` entry point. -/
theorem runAgentLoop_turn_bound (messages : List ChatMessage) (chat : Nat → ChatOutcome)
    (tools : ToolRegistry) (stringify : Args → String) (maxTurns : Nat)
    (hmax : 1 ≤ maxTurns)
    (hchat : ∀ n, ∃ resp, chat n = ChatOutcome.ok resp ∧ resp.toolCalls ≠ [])
    (htools : ∀ name args, (tools.execute name args).outcome ≠ ExecOutcome.abort) :
    (runAgentLoop messages chat tools stringify maxTurns Option.none).outcome =
      LoopOutcome.done ⟨stoppedForSafety, maxTurns,
        (runAgentLoop messages chat tools stringify maxTurns Option.none).state.toolsUsed⟩ ∧
    (runAgentLoop messages chat tools stringify maxTurns Option.none).state.chatCalls =
      maxTurns := by
  have h := runLoopAux_exhausts chat tools stringify maxTurns hchat htools maxTurns 0
    { messages := messages
      toolsUsed := []
      chatCalls := 0
      signalChecks := 0
      handlerCalls := [] }
  exact ⟨h.1, by simpa using h.2⟩

/-- A model oracle that always requests one `echo` tool call. -/
def alwaysToolChat : Nat → ChatOutcome := fun _ =>
  ChatOutcome.ok
    { content := Option.none
      toolCalls := [⟨"tc1", "echo", []⟩]
      finishReason := "tool_calls" }

/-- A trivial stringify stand-in for `JSON.stringify` in witnesses. -/
def demoStringify : Args → String := fun _ => "{}"

/-- A demo starting conversation. -/
def demoMessages : List ChatMessage := [{ role := Role.user, content := "hi" }]

/-- The empty registry never aborts: every `execute` returns a string
(here the unknown-tool error string). -/
theorem emptyRegistry_no_abort (name : String) (args : Args) :
    (ToolRegistry.execute {} name args).outcome ≠ ExecOutcome.abort := by
  simp [ToolRegistry.execute]

/-- Witness for C4 at a concrete input: two turns, a model that always
requests a tool call, the empty registry. -/
theorem runAgentLoop_turn_bound_witness :
    1 ≤ 2 ∧
    (∀ n, ∃ resp, alwaysToolChat n = ChatOutcome.ok resp ∧ resp.toolCalls ≠ []) ∧
    ((runAgentLoop demoMessages alwaysToolChat {} demoStringify 2 Option.none).outcome =
      LoopOutcome.done ⟨stoppedForSafety, 2,
        (runAgentLoop demoMessages alwaysToolChat {} demoStringify 2
          Option.none).state.toolsUsed⟩ ∧
    (runAgentLoop demoMessages alwaysToolChat {} demoStringify 2
      Option.none).state.chatCalls = 2) :=
  ⟨by decide,
    fun n => ⟨_, rfl, by decide⟩,
    runAgentLoop_turn_bound demoMessages alwaysToolChat {} demoStringify 2
      (by decide) (fun n => ⟨_, rfl, by decide⟩) emptyRegistry_no_abort⟩

/-- Claim C5: in a turn whose model response carries the tool calls `tcs`
(no cancellation, no aborting call), the ExecutingTools phase of
`runAgentLoop` appends exactly `tcs.length` tool-role messages, in the order
of the calls, the i-th carrying `tool_call_id` equal to the id of the i-th
call of the turn. -/
theorem execTools_appends_in_order (tools : ToolRegistry) (tcs : List ToolCall)
    (st : LoopState)
    (htools : ∀ tc ∈ tcs, (tools.execute tc.name tc.arguments).outcome ≠ ExecOutcome.abort) :
    ∃ st' appended, execTools tools Option.none tcs st = ToolPhase.completed st' ∧
      st'.messages = st.messages ++ appended ∧
      appended.length = tcs.length ∧
      appended.map (fun m => m.role) = tcs.map (fun _ => Role.tool) ∧
      appended.map (fun m => m.tool_call_id) = tcs.map (fun tc => some tc.id) := by
  refine ⟨_, tcs.map (toolResultMsg tools), execTools_none_spec tools tcs htools st, rfl,
    ?_, ?_, ?_⟩
  · simp
  · simp only [List.map_map]; rfl
  · simp only [List.map_map]; rfl

/-- Two demo tool calls for the C5 witness. -/
def demoCalls : List ToolCall := [⟨"c1", "alpha", []⟩, ⟨"c2", "beta", []⟩]

/-- A demo starting loop state. -/
def demoState : LoopState :=
  { messages := demoMessages
    toolsUsed := []
    chatCalls := 0
    signalChecks := 0
    handlerCalls := [] }

/-- Witness for C5 at a concrete input: two tool calls against the empty
registry append two tool messages in order with matching ids. -/
theorem execTools_appends_in_order_witness :
    (∀ tc ∈ demoCalls, (ToolRegistry.execute {} tc.name tc.arguments).outcome ≠
      ExecOutcome.abort) ∧
    (∃ st' appended, execTools {} Option.none demoCalls demoState = ToolPhase.completed st' ∧
      st'.messages = demoState.messages ++ appended ∧
      appended.length = demoCalls.length ∧
      appended.map (fun m => m.role) = demoCalls.map (fun _ => Role.tool) ∧
      appended.map (fun m => m.tool_call_id) = demoCalls.map (fun tc => some tc.id)) :=
  ⟨fun tc _ => emptyRegistry_no_abort tc.name tc.arguments,
    execTools_appends_in_order {} demoCalls demoState
      (fun tc _ => emptyRegistry_no_abort tc.name tc.arguments)⟩

/-- Claim C3: if the turn's response carries three tool calls and the signal
reads `false` at the first check and `true` at the second (it becomes aborted
after the first call completes and before the second starts), the run raises
the cancellation outcome (`UserAbortError`, never an error string), exactly
the assistant message and the first call's tool-result message are appended,
the only handler invocations are those performed by the first call's
`execute`, and the second and third calls are never dispatched. -/
theorem runAgentLoop_cancel_mid_turn (messages : List ChatMessage)
    (chat : Nat → ChatOutcome) (tools : ToolRegistry) (stringify : Args → String)
    (maxTurns k : Nat) (f : Nat → Bool) (resp : LLMResponse)
    (t1 t2 t3 : ToolCall) (s : String)
    (hmax : maxTurns = k + 1)
    (hchat : chat 0 = ChatOutcome.ok resp)
    (hcalls : resp.toolCalls = [t1, t2, t3])
    (hf0 : f 0 = false) (hf1 : f 1 = true)
    (hexec : (tools.execute t1.name t1.arguments).outcome = ExecOutcome.result s) :
    (runAgentLoop messages chat tools stringify maxTurns (some f)).outcome =
      LoopOutcome.abort ∧
    (runAgentLoop messages chat tools stringify maxTurns (some f)).state.messages =
      messages ++ [assistantMsgOf stringify resp,
        { role := Role.tool, content := s, tool_call_id := some t1.id }] ∧
    (runAgentLoop messages chat tools stringify maxTurns (some f)).state.handlerCalls =
      (tools.execute t1.name t1.arguments).handlerCalls ∧
    (runAgentLoop messages chat tools stringify maxTurns (some f)).state.toolsUsed =
      [t1.name] := by
  subst hmax
  refine ⟨?_, ?_, ?_, ?_⟩ <;>
    simp [runAgentLoop, runLoopAux, hchat, hcalls, execTools, execTools.execToolStep,
      hf0, hf1, hexec]

/-- A signal oracle that is aborted from the second read on. -/
def cancelAfterOne : Nat → Bool := fun n => decide (1 ≤ n)

/-- The C3 witness response: three tool calls. -/
def threeCallResp : LLMResponse :=
  { content := some "calling"
    toolCalls := [⟨"c1", "alpha", []⟩, ⟨"c2", "beta", []⟩, ⟨"c3", "gamma", []⟩]
    finishReason := "tool_calls" }

/-- A model oracle answering with `threeCallResp` on every turn. -/
def threeCallChat : Nat → ChatOutcome := fun _ => ChatOutcome.ok threeCallResp

/-- Witness for C3 at a concrete input: three calls against the empty
registry, signal aborted from the second read on. -/
theorem runAgentLoop_cancel_mid_turn_witness :
    cancelAfterOne 0 = false ∧ cancelAfterOne 1 = true ∧
    threeCallChat 0 = ChatOutcome.ok threeCallResp ∧
    (ToolRegistry.execute {} "alpha" []).outcome =
      ExecOutcome.result "Error: unknown tool 'alpha'" ∧
    ((runAgentLoop demoMessages threeCallChat {} demoStringify 5
        (some cancelAfterOne)).outcome = LoopOutcome.abort ∧
      (runAgentLoop demoMessages threeCallChat {} demoStringify 5
        (some cancelAfterOne)).state.toolsUsed = ["alpha"]) :=
  ⟨rfl, rfl, rfl, rfl, by
    have h := runAgentLoop_cancel_mid_turn demoMessages threeCallChat {} demoStringify
      5 4 cancelAfterOne threeCallResp ⟨"c1", "alpha", []⟩ ⟨"c2", "beta", []⟩
      ⟨"c3", "gamma", []⟩ "Error: unknown tool 'alpha'" rfl rfl rfl rfl rfl rfl
    exact ⟨h.1, h.2.2.2⟩⟩

/-! ## Tool-call assembly (`client.ts` lines 184-194)

Streamed tool-call deltas are accumulated per index; at stream end each
buffer's argument string is parsed with the host JSON parser (`JSON.parse`,
a parameter here), a parse failure degrading to the empty map. -/

/-- One accumulated streamed tool call (a `toolCallAccum` map entry value). -/
structure ToolCallAccum where
  id : String
  name : String
  arguments : String
deriving DecidableEq

/-- Insertion step for sorting accumulated entries by index ascending,
modelling `[...entries()].sort((a, b) => a[0] - b[0])`. -/
def insertByIndex (e : Nat × ToolCallAccum) :
    List (Nat × ToolCallAccum) → List (Nat × ToolCallAccum)
  | [] => [e]
  | x :: xs => if e.1 < x.1 then e :: x :: xs else x :: insertByIndex e xs

/-- Sort the accumulated entries by tool-call index, ascending. -/
def sortByIndex : List (Nat × ToolCallAccum) → List (Nat × ToolCallAccum)
  | [] => []
  | x :: xs => insertByIndex x (sortByIndex xs)

/-- Assemble the accumulated tool calls, client.ts lines 185-194: sort by
index, parse each arguments buffer, and degrade a parse failure (the
`catch` branch) to the empty map instead of throwing. -/
def assembleToolCalls (parseJson : String → Option Args)
    (accum : List (Nat × ToolCallAccum)) : List ToolCall :=
  (sortByIndex accum).map (fun e => ⟨e.2.id, e.2.name, (parseJson e.2.arguments).getD []⟩)

theorem insertByIndex_perm (e : Nat × ToolCallAccum) :
    ∀ l, List.Perm (insertByIndex e l) (e :: l) := by
  intro l
  induction l with
  | nil => exact List.Perm.refl _
  | cons x xs ih =>
    simp only [insertByIndex]
    by_cases h : e.1 < x.1
    · simp [h]
    · simp only [h, if_false]
      exact (ih.cons x).trans (List.Perm.swap e x xs)

theorem sortByIndex_perm : ∀ l, List.Perm (sortByIndex l) l := by
  intro l
  induction l with
  | nil => exact List.Perm.refl _
  | cons x xs ih => exact (insertByIndex_perm x (sortByIndex xs)).trans (ih.cons x)

/-- Claim C7: a streamed tool call whose accumulated arguments buffer fails
JSON parsing is assembled with the empty arguments map (assembly is total,
so nothing is thrown), and when the turn loop processes such a call the
tool's handler is still invoked, receiving the empty map. -/
theorem toolCall_args_malformed (parseJson : String → Option Args)
    (accum : List (Nat × ToolCallAccum)) (e : Nat × ToolCallAccum)
    (buf cid nm : String) (reg : ToolRegistry) (tool : ToolRegistration)
    (he : e ∈ accum) (hparse : parseJson e.2.arguments = Option.none)
    (hbuf : parseJson buf = Option.none)
    (hfind : reg.tools.find? (fun t => t.name == nm) = some tool)
    (hnoconf : reg.shouldConfirm tool = false) :
    (⟨e.2.id, e.2.name, []⟩ : ToolCall) ∈ assembleToolCalls parseJson accum ∧
    assembleToolCalls parseJson [(0, ⟨cid, nm, buf⟩)] = [⟨cid, nm, []⟩] ∧
    ∀ st : LoopState,
      (execTools reg Option.none (assembleToolCalls parseJson [(0, ⟨cid, nm, buf⟩)])
        st).state.handlerCalls = st.handlerCalls ++ [[]] := by
  have hsingle : assembleToolCalls parseJson [(0, ⟨cid, nm, buf⟩)] = [⟨cid, nm, []⟩] := by
    simp [assembleToolCalls, sortByIndex, insertByIndex, hbuf]
  have hexecEq : reg.execute nm [] = runHandler tool [] [] := by
    cases hcb : reg.confirmationCallback <;>
      simp [ToolRegistry.execute, hfind, hcb, hnoconf]
  refine ⟨?_, hsingle, ?_⟩
  · have hmem : e ∈ sortByIndex accum := ((sortByIndex_perm accum).mem_iff).2 he
    have := List.mem_map_of_mem
      (fun e : Nat × ToolCallAccum =>
        (⟨e.2.id, e.2.name, (parseJson e.2.arguments).getD []⟩ : ToolCall)) hmem
    simpa [assembleToolCalls, hparse] using this
  · intro st
    rw [hsingle]
    simp only [execTools, execTools.execToolStep, hexecEq]
    unfold runHandler
    cases tool.handler [] <;> simp [execTools, ToolPhase.state]

/-- A none-group echo tool: never gated, handler returns a fixed string. -/
def echoTool : ToolRegistration :=
  { name := "echo"
    description := "Echo tool"
    handler := fun _ => HandlerOutcome.ok "echoed"
    confirmationGroup := some ConfirmationGroup.none }

/-- Registry holding only `echoTool`. -/
def demoRegistryEcho : ToolRegistry := ToolRegistry.register {} echoTool

/-- A host JSON parser stand-in that rejects every buffer (the witness only
needs its behavior on the single malformed buffer). -/
def failingParse : String → Option Args := fun _ => Option.none

/-- Witness for C7 at a concrete input: one streamed call with malformed
arguments buffer, the `echo` tool, the empty starting state. -/
theorem toolCall_args_malformed_witness :
    (0, (⟨"c1", "echo", "\x7bbad"⟩ : ToolCallAccum)) ∈
      [((0 : Nat), (⟨"c1", "echo", "\x7bbad"⟩ : ToolCallAccum))] ∧
    failingParse "\x7bbad" = Option.none ∧
    demoRegistryEcho.tools.find? (fun t => t.name == "echo") = some echoTool ∧
    demoRegistryEcho.shouldConfirm echoTool = false ∧
    ((⟨"c1", "echo", []⟩ : ToolCall) ∈
      assembleToolCalls failingParse [(0, ⟨"c1", "echo", "\x7bbad"⟩)] ∧
    assembleToolCalls failingParse [(0, ⟨"c1", "echo", "\x7bbad"⟩)] = [⟨"c1", "echo", []⟩] ∧
    ∀ st : LoopState,
      (execTools demoRegistryEcho Option.none
        (assembleToolCalls failingParse [(0, ⟨"c1", "echo", "\x7bbad"⟩)])
        st).state.handlerCalls = st.handlerCalls ++ [[]]) :=
  ⟨by decide, rfl, rfl, rfl,
    toolCall_args_malformed failingParse [(0, ⟨"c1", "echo", "\x7bbad"⟩)]
      (0, ⟨"c1", "echo", "\x7bbad"⟩) "\x7bbad" "c1" "echo" demoRegistryEcho echoTool
      (by decide) rfl rfl rfl rfl⟩

/-! ## applyEdit (`core/src/tools/edit.ts`)

JS strings are modelled as `List Char`.  `content.split(oldString)` and
`parts.join(newString)` (host primitives) are modelled by `splitJS` /
`List.intercalate`; the split is by definition on literal character
sequences, so there is no regex interpretation of any character. -/

/-- Prepend a character to the first segment (helper for `splitJS`). -/
def consHead (c : Char) : List (List Char) → List (List Char)
  | [] => [[c]]
  | seg :: rest => (c :: seg) :: rest

/-- JS `s.split(sep)` for a non-empty separator: segments between leftmost
non-overlapping occurrences.  (`sep = []` is unreachable in `applyEdit`,
which guards `old_string !== ""`; JS would split into single characters.) -/
def splitJS (sep s : List Char) : List (List Char) :=
  match sep, s with
  | [], s => [s]
  | _ :: _, [] => [[]]
  | c0 :: p', c :: t =>
    if (c0 :: p') <+: (c :: t) then
      [] :: splitJS (c0 :: p') (t.drop p'.length)
    else consHead c (splitJS (c0 :: p') t)
termination_by s.length
decreasing_by
  · simp; omega
  · simp

/-- Specification-side count of leftmost non-overlapping occurrences of a
pattern, by direct left-to-right scan. -/
def countOcc (pat s : List Char) : Nat :=
  match pat, s with
  | [], _ => 0
  | _ :: _, [] => 0
  | c0 :: p', c :: t =>
    if (c0 :: p') <+: (c :: t) then 1 + countOcc (c0 :: p') (t.drop p'.length)
    else countOcc (c0 :: p') t
termination_by s.length
decreasing_by
  · simp; omega
  · simp

/-- Specification-side replacement of every leftmost non-overlapping
occurrence of a pattern, by direct left-to-right scan. -/
def replaceOcc (pat new s : List Char) : List Char :=
  match pat, s with
  | [], _ => s
  | _ :: _, [] => []
  | c0 :: p', c :: t =>
    if (c0 :: p') <+: (c :: t) then new ++ replaceOcc (c0 :: p') new (t.drop p'.length)
    else c :: replaceOcc (c0 :: p') new t
termination_by s.length
decreasing_by
  · simp; omega
  · simp

/-- `EditParams` of edit.ts (strings as character lists). -/
structure EditParams where
  content : List Char
  oldString : List Char
  newString : List Char
  replaceAll : Option Bool := Option.none

/-- `EditResult` of edit.ts. -/
inductive EditResult where
  | ok (content : List Char) (replacements : Nat)
  | error (message : String)
deriving DecidableEq

/-- `applyEdit`, edit.ts lines 39-67: guard empty/identical `old_string`,
count occurrences via split, demand uniqueness unless `replace_all: true`,
replace by joining with `new_string`. -/
def applyEdit (p : EditParams) : EditResult :=
  if p.oldString = [] then EditResult.error "old_string must not be empty"
  else if p.oldString = p.newString then
    EditResult.error "old_string and new_string are identical"
  else
    let parts := splitJS p.oldString p.content
    let occurrences := parts.length - 1
    if occurrences = 0 then EditResult.error "old_string not found in file"
    else if 1 < occurrences ∧ p.replaceAll ≠ some true then
      EditResult.error ("old_string matches " ++ toString occurrences ++
        " times. Use replace_all: true or provide more context to make it unique.")
    else EditResult.ok (List.intercalate p.newString parts) occurrences

theorem consHead_ne_nil (c : Char) (l : List (List Char)) : consHead c l ≠ [] := by
  cases l <;> simp [consHead]

theorem consHead_length (c : Char) (l : List (List Char)) (h : l ≠ []) :
    (consHead c l).length = l.length := by
  cases l with
  | nil => exact absurd rfl h
  | cons seg rest => simp [consHead]

theorem splitJS_ne_nil (sep s : List Char) : splitJS sep s ≠ [] := by
  match sep, s with
  | [], s => simp [splitJS]
  | _ :: _, [] => simp [splitJS]
  | c0 :: p', c :: t =>
    rw [splitJS]
    by_cases hp : (c0 :: p') <+: (c :: t)
    · simp [hp]
    · simp only [hp, if_false]
      exact consHead_ne_nil c _

theorem splitJS_length (sep s : List Char) :
    (splitJS sep s).length = countOcc sep s + 1 := by
  match sep, s with
  | [], s => simp [splitJS, countOcc]
  | _ :: _, [] => simp [splitJS, countOcc]
  | c0 :: p', c :: t =>
    rw [splitJS, countOcc]
    by_cases hp : (c0 :: p') <+: (c :: t)
    · simp only [hp, if_true, List.length_cons]
      rw [splitJS_length (c0 :: p') (t.drop p'.length)]
      omega
    · simp only [hp, if_false]
      rw [consHead_length c _ (splitJS_ne_nil _ _), splitJS_length (c0 :: p') t]
termination_by s.length
decreasing_by
  · simp; omega
  · simp

theorem intercalate_cons₂ (sep x y : List Char) (zs : List (List Char)) :
    List.intercalate sep (x :: y :: zs) = x ++ sep ++ List.intercalate sep (y :: zs) := by
  simp [List.intercalate, List.intersperse, List.append_assoc]

theorem intercalate_singleton (sep x : List Char) : List.intercalate sep [x] = x := by
  simp [List.intercalate, List.intersperse]

theorem intercalate_cons_ne (sep x : List Char) (l : List (List Char)) (h : l ≠ []) :
    List.intercalate sep (x :: l) = x ++ sep ++ List.intercalate sep l := by
  cases l with
  | nil => exact absurd rfl h
  | cons y zs => exact intercalate_cons₂ sep x y zs

theorem intercalate_consHead (sep : List Char) (c : Char) (l : List (List Char))
    (h : l ≠ []) :
    List.intercalate sep (consHead c l) = c :: List.intercalate sep l := by
  cases l with
  | nil => exact absurd rfl h
  | cons seg rest =>
    cases rest with
    | nil => simp [consHead, intercalate_singleton]
    | cons r rs =>
      rw [consHead, intercalate_cons₂, intercalate_cons₂]
      simp

theorem intercalate_splitJS (sep new s : List Char) :
    List.intercalate new (splitJS sep s) = replaceOcc sep new s := by
  match sep, s with
  | [], s => simp [splitJS, replaceOcc, intercalate_singleton]
  | _ :: _, [] => simp [splitJS, replaceOcc, intercalate_singleton]
  | c0 :: p', c :: t =>
    rw [splitJS, replaceOcc]
    by_cases hp : (c0 :: p') <+: (c :: t)
    · simp only [hp, if_true]
      rw [intercalate_cons_ne new [] _ (splitJS_ne_nil _ _),
        intercalate_splitJS (c0 :: p') new (t.drop p'.length)]
      simp
    · simp only [hp, if_false]
      rw [intercalate_consHead new c _ (splitJS_ne_nil _ _),
        intercalate_splitJS (c0 :: p') new t]
termination_by s.length
decreasing_by
  · simp; omega
  · simp

theorem countOcc_eq_zero_iff (sep s : List Char) (hne : sep ≠ []) :
    countOcc sep s = 0 ↔ ¬ sep <:+: s := by
  match sep, s with
  | [], s => exact absurd rfl hne
  | c0 :: p', [] =>
    simp [countOcc, List.infix_nil]
  | c0 :: p', c :: t =>
    rw [countOcc]
    by_cases hp : (c0 :: p') <+: (c :: t)
    · simp only [hp, if_true]
      constructor
      · intro h; omega
      · intro h; exact absurd hp.isInfix h
    · simp only [hp, if_false]
      rw [countOcc_eq_zero_iff (c0 :: p') t hne]
      constructor
      · intro h hinf
        rcases List.infix_cons_iff.1 hinf with h1 | h2
        · exact hp h1
        · exact h h2
      · intro h hinf
        exact h (List.infix_cons hinf)
termination_by s.length
decreasing_by
  · simp

/-- Claim C10: `applyEdit` returns an error exactly when `oldString` is
empty, or equals `newString`, or does not occur (as a literal contiguous
character sequence) in `content`, or occurs more than once while
`replaceAll` is not `true`; in every other case it returns `ok` with every
leftmost non-overlapping occurrence of `oldString` literally replaced by
`newString` and `replacements` equal to the number of such occurrences. -/
theorem applyEdit_spec (content oldString newString : List Char)
    (replaceAll : Option Bool) :
    ((∃ m, applyEdit ⟨content, oldString, newString, replaceAll⟩ = EditResult.error m) ↔
      (oldString = [] ∨ oldString = newString ∨ ¬ oldString <:+: content ∨
        (1 < countOcc oldString content ∧ replaceAll ≠ some true))) ∧
    (∀ out reps, applyEdit ⟨content, oldString, newString, replaceAll⟩ =
        EditResult.ok out reps →
      out = replaceOcc oldString newString content ∧
      reps = countOcc oldString content) := by
  have hlen : (splitJS oldString content).length - 1 = countOcc oldString content := by
    rw [splitJS_length]
    omega
  by_cases h1 : oldString = []
  · constructor
    · simp [applyEdit, h1]
    · intro out reps h
      rw [applyEdit] at h
      simp [h1] at h
  by_cases h2 : oldString = newString
  · have h1' : ¬ newString = [] := by rw [← h2]; exact h1
    constructor
    · simp [applyEdit, h1, h2, h1']
    · intro out reps h
      rw [applyEdit] at h
      simp [h1, h2, h1'] at h
  by_cases h3 : countOcc oldString content = 0
  · have hni : ¬ oldString <:+: content := (countOcc_eq_zero_iff _ _ h1).1 h3
    constructor
    · simp [applyEdit, h1, h2, hlen, h3, hni]
    · intro out reps h
      rw [applyEdit] at h
      simp [h1, h2, hlen, h3] at h
  by_cases h4 : 1 < countOcc oldString content ∧ replaceAll ≠ some true
  · constructor
    · simp [applyEdit, h1, h2, hlen, h3, h4]
    · intro out reps h
      rw [applyEdit] at h
      simp [h1, h2, hlen, h3, h4] at h
  · have hinf : oldString <:+: content := by
      by_contra hni
      exact h3 ((countOcc_eq_zero_iff _ _ h1).2 hni)
    constructor
    · simp [applyEdit, h1, h2, hlen, h3, h4, hinf]
    · intro out reps h
      rw [applyEdit] at h
      simp [h1, h2, hlen, h3, h4] at h
      exact ⟨by rw [← h.1, intercalate_splitJS], by rw [← h.2]⟩

/-- Witness for C10 at a concrete input: replacing both occurrences of
`"foo"` in `"foo bar foo"` with `replace_all: true` succeeds with count 2,
matching the scan-based specification. -/
theorem applyEdit_spec_witness :
    applyEdit ⟨"foo bar foo".data, "foo".data, "qux".data, some true⟩ =
      EditResult.ok ("qux bar qux".data) 2 ∧
    ("qux bar qux".data = replaceOcc "foo".data "qux".data "foo bar foo".data ∧
      (2 : Nat) = countOcc "foo".data "foo bar foo".data) := by
  have happ : applyEdit ⟨"foo bar foo".data, "foo".data, "qux".data, some true⟩ =
      EditResult.ok ("qux bar qux".data) 2 := by
    simp +decide [applyEdit, splitJS, consHead, List.intercalate, List.intersperse]
  exact ⟨happ,
    (applyEdit_spec "foo bar foo".data "foo".data "qux".data (some true)).2 _ 2 happ⟩

/-! ## Reasoning splitter (`client.ts` `processThinkBuffer`, lines 217-280)

The splitter consumes content deltas, classifies character spans as visible
or reasoning by tracking `<think>`/`</think>` marker occurrences that may be
split across deltas, and emits `(text, isThinking)` spans via the `onToken`
callback.  The while-loop with its cursor `pos` is embedded as a recursion on
the unprocessed remainder of the buffer; this is faithful because the
source's whole-buffer `endsWith` checks can never reach before `pos` (any
partial-marker suffix crossing `pos` would place the marker's `<` inside the
just-processed marker, which the marker shapes rule out). -/

/-- One `onToken` emission: the text span with its `isThinking` flag. -/
abbrev Span := List Char × Bool

/-- The open marker `"<think>"`. -/
def openTag : List Char := ['<', 't', 'h', 'i', 'n', 'k', '>']

/-- The close marker `"</think>"`. -/
def closeTag : List Char := ['<', '/', 't', 'h', 'i', 'n', 'k', '>']

/-- The one-time visual marker `"[thinking] "` emitted on entering a span. -/
def thinkingMarker : List Char := ['[', 't', 'h', 'i', 'n', 'k', 'i', 'n', 'g', ']', ' ']

/-- Emit a span only when its text is non-empty (the source guards each
`onToken` call on the sliced text being truthy). -/
def emitSpan (s : List Char) (b : Bool) : List Span :=
  if s = [] then [] else [(s, b)]

/-- JS `buffer.indexOf(tag, pos)` relative to the remainder: the position of
the first occurrence of `pat` in `s`, if any. -/
def indexOfSub (pat : List Char) : List Char → Option Nat
  | [] => if pat <+: ([] : List Char) then some 0 else Option.none
  | c :: t =>
    if pat <+: (c :: t) then some 0 else (indexOfSub pat t).map (fun n => n + 1)

/-- The partial-marker check of lines 231-241 / 256-264: the length of the
marker prefix found as a suffix of the buffer by scanning `i = 1, 2, ...`
upward (`0` when none).  The marker prefixes have pairwise distinct last
characters, so at most one `i` can match and first hit = unique hit. -/
def pendingLen (tag buf : List Char) : Nat :=
  match (List.range' 1 (tag.length - 1)).find?
      (fun i => decide ((tag.take i) <:+ buf)) with
  | some i => i
  | Option.none => 0

theorem indexOfSub_bound (pat : List Char) : ∀ (s : List Char) (k : Nat),
    indexOfSub pat s = some k → k + pat.length ≤ s.length := by
  intro s
  induction s with
  | nil =>
    intro k h
    by_cases hp : pat <+: ([] : List Char)
    · rw [List.prefix_nil] at hp
      simp [indexOfSub, hp] at h
      simp [← h, hp]
    · simp [indexOfSub, List.prefix_nil, hp] at h
  | cons c t ih =>
    intro k h
    by_cases hp : pat <+: (c :: t)
    · simp [indexOfSub, hp] at h
      have := hp.length_le
      simp [← h]
      simpa using this
    · simp [indexOfSub, hp] at h
      obtain ⟨n, hn, hk⟩ := h
      have := ih n hn
      simp
      omega

/-- `processThinkBuffer`, client.ts lines 217-280, on the unprocessed
remainder: returns the emitted spans, the new `insideThink` flag and the
remaining (partial-marker) buffer.  In the found cases the cursor skips 7
(`"<think>".length`) resp. 8 (`"</think>".length`) characters past the
occurrence. -/
def scanThink (inside : Bool) (buf : List Char) : List Span × Bool × List Char :=
  if inside then
    match h : indexOfSub closeTag buf with
    | some k =>
      let rest := scanThink false (buf.drop (k + 8))
      (emitSpan (buf.take k) true ++ (['\n'], true) :: rest.1, rest.2)
    | Option.none =>
      let p := pendingLen closeTag buf
      (emitSpan (buf.take (buf.length - p)) true, true, buf.drop (buf.length - p))
  else
    match h : indexOfSub openTag buf with
    | some k =>
      let rest := scanThink true (buf.drop (k + 7))
      (emitSpan (buf.take k) false ++ (thinkingMarker, false) :: rest.1, rest.2)
    | Option.none =>
      let p := pendingLen openTag buf
      (emitSpan (buf.take (buf.length - p)) false, false, buf.drop (buf.length - p))
termination_by buf.length
decreasing_by
  · have hb := indexOfSub_bound closeTag buf k h
    simp [closeTag] at hb
    simp
    omega
  · have hb := indexOfSub_bound openTag buf k h
    simp [openTag] at hb
    simp
    omega

/-- The live splitter state of one `chat` call: `insideThink` and
`thinkTagBuffer` (client.ts lines 111-112). -/
structure SplitterState where
  insideThink : Bool
  thinkTagBuffer : List Char
deriving DecidableEq

/-- One content delta: append to the buffer and process (lines 152-160). -/
def feedChunk (st : SplitterState) (chunk : List Char) : List Span × SplitterState :=
  let r := scanThink st.insideThink (st.thinkTagBuffer ++ chunk)
  (r.1, ⟨r.2.1, r.2.2⟩)

/-- Feed a whole list of content deltas in order. -/
def feedChunks : SplitterState → List (List Char) → List Span × SplitterState
  | st, [] => ([], st)
  | st, c :: cs =>
    let r := feedChunk st c
    let rest := feedChunks r.2 cs
    (r.1 ++ rest.1, rest.2)

/-- The end-of-stream flush (lines 179-182): emit the leftover buffer, if
non-empty, with the current flag. -/
def flushSpans (st : SplitterState) : List Span :=
  emitSpan st.thinkTagBuffer st.insideThink

/-- The full streamed splitter run over a chunked content stream: start
outside a think block with an empty buffer, feed every delta, flush. -/
def runSplitter (chunks : List (List Char)) : List Span :=
  let r := feedChunks ⟨false, []⟩ chunks
  r.1 ++ flushSpans r.2

/-- The emitted output as a flag-tagged character sequence (the observable
reconstruction of the stream: text with per-character thinking flags). -/
def tagChars (spans : List Span) : List (Char × Bool) :=
  (spans.map (fun sp => sp.1.map (fun c => (c, sp.2)))).flatten

/-- The concatenation of all emitted span texts. -/
def emittedText (spans : List Span) : List Char :=
  (spans.map (fun sp => sp.1)).flatten

theorem tagChars_append (a b : List Span) :
    tagChars (a ++ b) = tagChars a ++ tagChars b := by
  simp [tagChars]

theorem tagChars_emitSpan (s : List Char) (b : Bool) :
    tagChars (emitSpan s b) = s.map (fun c => (c, b)) := by
  by_cases h : s = []
  · simp [emitSpan, h, tagChars]
  · simp [emitSpan, h, tagChars]

/-- Claim C6 counterexample: for the single well-formed input
`"<think>a</think>"` (one marker pair), the concatenation of all emitted
text is `"[thinking] a\n"`, not the input with the markers removed (`"a"`):
the splitter inserts the visual marker on entering a reasoning span and a
newline on leaving it, so the plain round-trip stated by the claim fails. -/
theorem splitter_not_plain_roundtrip :
    emittedText (runSplitter
        [['<', 't', 'h', 'i', 'n', 'k', '>', 'a', '<', '/', 't', 'h', 'i', 'n', 'k', '>']]) =
      thinkingMarker ++ ['a', '\n'] ∧
    emittedText (runSplitter
        [['<', 't', 'h', 'i', 'n', 'k', '>', 'a', '<', '/', 't', 'h', 'i', 'n', 'k', '>']]) ≠
      ['a'] := by
  have h : runSplitter
      [['<', 't', 'h', 'i', 'n', 'k', '>', 'a', '<', '/', 't', 'h', 'i', 'n', 'k', '>']] =
      [(thinkingMarker, false), (['a'], true), (['\n'], true)] := by
    simp +decide [runSplitter, feedChunks, feedChunk, scanThink, indexOfSub, pendingLen,
      emitSpan, flushSpans, openTag, closeTag, List.range']
  rw [h]
  constructor
  · simp [emittedText, thinkingMarker]
  · simp +decide [emittedText, thinkingMarker]

theorem infix_iff_exists_drop (pat s : List Char) :
    pat <:+: s ↔ ∃ j, pat <+: s.drop j := by
  constructor
  · intro h
    obtain ⟨t, hpt, hts⟩ := List.infix_iff_prefix_suffix.1 h
    obtain ⟨u, rfl⟩ := hts
    exact ⟨u.length, by rw [List.drop_left]; exact hpt⟩
  · rintro ⟨j, hj⟩
    exact hj.isInfix.trans (List.drop_suffix j s).isInfix

theorem prefix_of_prefix_append (pat a b : List Char) (h : pat <+: a ++ b)
    (hl : pat.length ≤ a.length) : pat <+: a := by
  have heq := List.prefix_iff_eq_take.1 h
  rw [List.take_append_eq_append_take, Nat.sub_eq_zero_of_le hl, List.take_zero,
    List.append_nil] at heq
  rw [List.prefix_iff_eq_take]
  exact heq

theorem indexOfSub_eq_some_iff (pat : List Char) : ∀ (s : List Char) (k : Nat),
    indexOfSub pat s = some k ↔
      (pat <+: s.drop k ∧ ∀ j, j < k → ¬ pat <+: s.drop j) := by
  intro s
  induction s with
  | nil =>
    intro k
    constructor
    · intro h
      by_cases hp : pat <+: ([] : List Char)
      · simp [indexOfSub, hp] at h
        subst h
        exact ⟨by simpa using hp, by intro j hj; omega⟩
      · simp [indexOfSub, hp] at h
    · rintro ⟨h1, h2⟩
      have hp : pat <+: ([] : List Char) := by simpa using h1
      have hk : k = 0 := by
        by_contra hne
        exact h2 0 (Nat.pos_of_ne_zero hne) (by simpa using hp)
      rw [indexOfSub, if_pos hp, hk]
  | cons c t ih =>
    intro k
    constructor
    · intro h
      by_cases hp : pat <+: (c :: t)
      · simp [indexOfSub, hp] at h
        subst h
        exact ⟨by simpa using hp, by intro j hj; omega⟩
      · simp [indexOfSub, hp] at h
        obtain ⟨n, hn, rfl⟩ := h
        obtain ⟨h1, h2⟩ := (ih n).1 hn
        refine ⟨by simpa using h1, ?_⟩
        intro j hj
        cases j with
        | zero => simpa using hp
        | succ j' =>
          have := h2 j' (by omega)
          simpa using this
    · rintro ⟨h1, h2⟩
      by_cases hp : pat <+: (c :: t)
      · have hk : k = 0 := by
          by_contra hne
          exact h2 0 (Nat.pos_of_ne_zero hne) (by simpa using hp)
        rw [indexOfSub, if_pos hp, hk]
      · cases k with
        | zero => exact absurd (by simpa using h1) hp
        | succ n =>
          have hrec : indexOfSub pat t = some n := (ih n).2
            ⟨by simpa using h1, by
              intro j hj
              have := h2 (j + 1) (by omega)
              simpa using this⟩
          rw [indexOfSub, if_neg hp, hrec]
          rfl

theorem indexOfSub_eq_none_iff (pat s : List Char) :
    indexOfSub pat s = Option.none ↔ ∀ j, ¬ pat <+: s.drop j := by
  cases h : indexOfSub pat s with
  | none =>
    refine ⟨fun _ => ?_, fun _ => rfl⟩
    intro j hj
    have hex : ∃ j, pat <+: s.drop j := ⟨j, hj⟩
    have hspec := Nat.find_spec hex
    have hmin : ∀ i, i < Nat.find hex → ¬ pat <+: s.drop i := fun i hi => Nat.find_min hex hi
    have := (indexOfSub_eq_some_iff pat s (Nat.find hex)).2 ⟨hspec, hmin⟩
    rw [h] at this
    exact Option.noConfusion this
  | some k =>
    refine ⟨fun hcontra => Option.noConfusion hcontra, fun hall => ?_⟩
    have := (indexOfSub_eq_some_iff pat s k).1 h
    exact absurd this.1 (hall k)

theorem indexOfSub_eq_none_of_marker_free (pat s : List Char) (h : ¬ pat <:+: s) :
    indexOfSub pat s = Option.none := by
  rw [indexOfSub_eq_none_iff]
  intro j hj
  exact h ((infix_iff_exists_drop pat s).2 ⟨j, hj⟩)

theorem indexOfSub_append_of_some (pat x y : List Char) (k : Nat)
    (h : indexOfSub pat x = some k) : indexOfSub pat (x ++ y) = some k := by
  obtain ⟨h1, h2⟩ := (indexOfSub_eq_some_iff pat x k).1 h
  have hb := indexOfSub_bound pat x k h
  apply (indexOfSub_eq_some_iff pat (x ++ y) k).2
  constructor
  · rw [List.drop_append_eq_append_drop, Nat.sub_eq_zero_of_le (by omega), List.drop_zero]
    exact h1.trans (List.prefix_append _ y)
  · intro j hj hpj
    apply h2 j hj
    rw [List.drop_append_eq_append_drop, Nat.sub_eq_zero_of_le (by omega),
      List.drop_zero] at hpj
    exact prefix_of_prefix_append pat _ y hpj (by simp; omega)

theorem openTag_ne_nil : openTag ≠ [] := by decide

theorem closeTag_ne_nil : closeTag ≠ [] := by decide

theorem openTag_nodup : (openTag.take (openTag.length - 1)).Nodup := by decide

theorem closeTag_nodup : (closeTag.take (closeTag.length - 1)).Nodup := by decide

/-- A nonempty suffix determines the last element of the enclosing list. -/
theorem getLast?_of_suffix (l buf : List Char) (h : l <:+ buf) (hne : l ≠ []) :
    buf.getLast? = l.getLast? := by
  obtain ⟨u, rfl⟩ := h
  exact List.getLast?_append_of_ne_nil u hne

/-- Two marker prefixes that are both suffixes of the same buffer must have
the same length, because the marker's first `length - 1` characters are
pairwise distinct (so each candidate prefix ends in a different character). -/
theorem marker_take_suffix_unique (tag buf : List Char)
    (hnd : (tag.take (tag.length - 1)).Nodup) (i j : Nat)
    (hi1 : 1 ≤ i) (hi2 : i < tag.length) (hj1 : 1 ≤ j) (hj2 : j < tag.length)
    (hsi : tag.take i <:+ buf) (hsj : tag.take j <:+ buf) : i = j := by
  have hlast : ∀ m, 1 ≤ m → m < tag.length → tag.take m <:+ buf →
      buf.getLast? = tag[m - 1]? := by
    intro m h1 h2 hs
    have hne : tag.take m ≠ [] := by
      have : (tag.take m).length = m := by simp; omega
      intro hcon
      rw [hcon] at this
      simp at this
      omega
    rw [getLast?_of_suffix _ buf hs hne, List.getLast?_eq_getElem?]
    have hlen : (tag.take m).length = m := by simp; omega
    rw [hlen, List.getElem?_take]
    rw [if_pos (by omega)]
  have h1 := hlast i hi1 hi2 hsi
  have h2 := hlast j hj1 hj2 hsj
  have heq : tag[i - 1]? = tag[j - 1]? := by rw [← h1, ← h2]
  have heqt : (tag.take (tag.length - 1))[i - 1]? = (tag.take (tag.length - 1))[j - 1]? := by
    rw [List.getElem?_take, List.getElem?_take]
    have hii : i - 1 < tag.length - 1 := by omega
    have hjj : j - 1 < tag.length - 1 := by omega
    rw [if_pos hii, if_pos hjj]
    exact heq
  have hlen : i - 1 < (tag.take (tag.length - 1)).length := by simp; omega
  have := List.getElem?_inj hlen hnd heqt
  omega

theorem pendingLen_lt (tag buf : List Char) (htag : tag ≠ []) :
    pendingLen tag buf < tag.length := by
  have hpos : 1 ≤ tag.length := by
    cases tag with
    | nil => exact absurd rfl htag
    | cons a l => simp
  cases hf : (List.range' 1 (tag.length - 1)).find?
      (fun i => decide ((tag.take i) <:+ buf)) with
  | none =>
    have h0 : pendingLen tag buf = 0 := by unfold pendingLen; rw [hf]
    omega
  | some i =>
    have h0 : pendingLen tag buf = i := by unfold pendingLen; rw [hf]
    have hmem := List.mem_of_find?_eq_some hf
    rw [List.mem_range'] at hmem
    omega

theorem pendingLen_pos_spec (tag buf : List Char) (h : pendingLen tag buf ≠ 0) :
    1 ≤ pendingLen tag buf ∧ pendingLen tag buf < tag.length ∧
      tag.take (pendingLen tag buf) <:+ buf := by
  cases hf : (List.range' 1 (tag.length - 1)).find?
      (fun i => decide ((tag.take i) <:+ buf)) with
  | none =>
    have h0 : pendingLen tag buf = 0 := by unfold pendingLen; rw [hf]
    exact absurd h0 h
  | some i =>
    have h0 : pendingLen tag buf = i := by unfold pendingLen; rw [hf]
    have hmem := List.mem_of_find?_eq_some hf
    rw [List.mem_range'] at hmem
    have hp := List.find?_some hf
    simp only [decide_eq_true_eq] at hp
    rw [h0]
    exact ⟨by omega, by omega, hp⟩

theorem pendingLen_zero_spec (tag buf : List Char) (h : pendingLen tag buf = 0) :
    ∀ i, 1 ≤ i → i < tag.length → ¬ tag.take i <:+ buf := by
  cases hf : (List.range' 1 (tag.length - 1)).find?
      (fun i => decide ((tag.take i) <:+ buf)) with
  | some i =>
    have h0 : pendingLen tag buf = i := by unfold pendingLen; rw [hf]
    have hmem := List.mem_of_find?_eq_some hf
    rw [List.mem_range'] at hmem
    omega
  | none =>
    intro i h1 h2 hs
    have := List.find?_eq_none.1 hf i (List.mem_range'.2 ⟨i - 1, by omega, by omega⟩)
    simp only [decide_eq_true_eq] at this
    exact this hs

theorem pendingLen_eq_of_suffix (tag buf : List Char)
    (hnd : (tag.take (tag.length - 1)).Nodup) (i : Nat)
    (h1 : 1 ≤ i) (h2 : i < tag.length) (hs : tag.take i <:+ buf) :
    pendingLen tag buf = i := by
  by_cases h0 : pendingLen tag buf = 0
  · exact absurd hs (pendingLen_zero_spec tag buf h0 i h1 h2)
  · obtain ⟨p1, p2, p3⟩ := pendingLen_pos_spec tag buf h0
    exact marker_take_suffix_unique tag buf hnd _ i p1 p2 h1 h2 p3 hs

theorem pendingLen_le_length (tag buf : List Char) : pendingLen tag buf ≤ buf.length := by
  by_cases h0 : pendingLen tag buf = 0
  · omega
  · obtain ⟨h1, h2, h3⟩ := pendingLen_pos_spec tag buf h0
    have hl := h3.length_le
    simp at hl
    omega

/-- No marker occurrence in `x ++ y` can start strictly before the pending
suffix of `x` when `x` itself contains no occurrence: an in-`x` occurrence
would contradict `indexOfSub tag x = none`, and a straddling occurrence
would leave a marker prefix at the end of `x` longer than the pending
length, contradicting the uniqueness of the pending length. -/
theorem no_occurrence_before_pending (tag x y : List Char) (htag : tag ≠ [])
    (hnd : (tag.take (tag.length - 1)).Nodup)
    (hnone : indexOfSub tag x = Option.none) (j : Nat)
    (hj : j < x.length - pendingLen tag x) : ¬ tag <+: (x ++ y).drop j := by
  intro hp
  have hjx : j < x.length := by omega
  rw [List.drop_append_eq_append_drop, Nat.sub_eq_zero_of_le (by omega),
    List.drop_zero] at hp
  have hr : (x.drop j).length = x.length - j := by simp
  by_cases hcase : tag.length ≤ x.length - j
  · have hpx : tag <+: x.drop j :=
      prefix_of_prefix_append tag (x.drop j) y hp (by omega)
    exact (indexOfSub_eq_none_iff tag x).1 hnone j hpx
  · have hrlt : x.length - j < tag.length := by omega
    have htake := List.prefix_iff_eq_take.1 hp
    rw [List.take_append_eq_append_take, List.take_of_length_le (by omega)] at htake
    have hA : tag.take (x.length - j) = x.drop j := by
      rw [htake, ← hr]
      exact List.take_left _ _
    have hsuf : tag.take (x.length - j) <:+ x := by
      rw [hA]
      exact List.drop_suffix j x
    have := pendingLen_eq_of_suffix tag x hnd (x.length - j) (by omega) hrlt hsuf
    omega

/-- When `x` has no marker occurrence, occurrences of the marker in `x ++ y`
are exactly the occurrences in `pending ++ y` shifted past the emitted part
of `x`. -/
theorem indexOfSub_append_none (tag x y : List Char) (htag : tag ≠ [])
    (hnd : (tag.take (tag.length - 1)).Nodup)
    (hnone : indexOfSub tag x = Option.none) :
    indexOfSub tag (x ++ y) =
      Option.map (fun n => n + (x.length - pendingLen tag x))
        (indexOfSub tag (x.drop (x.length - pendingLen tag x) ++ y)) := by
  have hple := pendingLen_le_length tag x
  have hq : x.length - pendingLen tag x ≤ x.length := by omega
  have htklen : (x.take (x.length - pendingLen tag x)).length =
      x.length - pendingLen tag x := by
    simp
  have hsplit : x ++ y = x.take (x.length - pendingLen tag x) ++
      (x.drop (x.length - pendingLen tag x) ++ y) := by
    rw [← List.append_assoc, List.take_append_drop]
  have hdropsplit : ∀ i, (x ++ y).drop ((x.length - pendingLen tag x) + i) =
      (x.drop (x.length - pendingLen tag x) ++ y).drop i := by
    intro i
    rw [hsplit,
      show (x.length - pendingLen tag x) + i =
        (x.take (x.length - pendingLen tag x)).length + i from by rw [htklen],
      List.drop_append]
  cases hinner : indexOfSub tag (x.drop (x.length - pendingLen tag x) ++ y) with
  | none =>
    rw [Option.map_none']
    rw [indexOfSub_eq_none_iff]
    intro j hj
    by_cases hjlt : j < x.length - pendingLen tag x
    · exact no_occurrence_before_pending tag x y htag hnd hnone j hjlt hj
    · have hj' : j = (x.length - pendingLen tag x) + (j - (x.length - pendingLen tag x)) := by
        omega
      rw [hj', hdropsplit] at hj
      exact (indexOfSub_eq_none_iff tag _).1 hinner _ hj
  | some k =>
    rw [Option.map_some']
    obtain ⟨hk1, hk2⟩ := (indexOfSub_eq_some_iff tag _ k).1 hinner
    apply (indexOfSub_eq_some_iff tag (x ++ y) (k + (x.length - pendingLen tag x))).2
    constructor
    · rw [Nat.add_comm, hdropsplit]
      exact hk1
    · intro j hj hpj
      by_cases hjlt : j < x.length - pendingLen tag x
      · exact no_occurrence_before_pending tag x y htag hnd hnone j hjlt hpj
      · have hj' : j = (x.length - pendingLen tag x) + (j - (x.length - pendingLen tag x)) := by
          omega
        rw [hj', hdropsplit] at hpj
        exact hk2 _ (by omega) hpj

/-- Suffix analog of `prefix_of_prefix_append`: a suffix of `x ++ y` no
longer than `y` is a suffix of `y`. -/
theorem suffix_of_suffix_append (l x y : List Char) (h : l <:+ x ++ y)
    (hl : l.length ≤ y.length) : l <:+ y := by
  obtain ⟨u, hu⟩ := h
  have hlen : u.length + l.length = x.length + y.length := by
    have := congrArg List.length hu
    simpa using this
  have : y = u.drop x.length ++ l := by
    have h2 : (u ++ l).drop x.length = (x ++ y).drop x.length := by rw [hu]
    rw [List.drop_left] at h2
    rw [List.drop_append_eq_append_drop, Nat.sub_eq_zero_of_le (by omega),
      List.drop_zero] at h2
    exact h2.symm
  exact ⟨u.drop x.length, this.symm⟩

/-- When neither `x` nor `pending ++ y` contains a marker occurrence, the
pending length of `x ++ y` equals the pending length of `pending ++ y`. -/
theorem pendingLen_append_none (tag x y : List Char) (htag : tag ≠ [])
    (hnd : (tag.take (tag.length - 1)).Nodup)
    (hnone : indexOfSub tag x = Option.none) :
    pendingLen tag (x ++ y) =
      pendingLen tag (x.drop (x.length - pendingLen tag x) ++ y) := by
  have hple := pendingLen_le_length tag x
  have hremlen : (x.drop (x.length - pendingLen tag x)).length = pendingLen tag x := by
    simp
    omega
  have hsufrem : x.drop (x.length - pendingLen tag x) ++ y <:+ x ++ y := by
    refine ⟨x.take (x.length - pendingLen tag x), ?_⟩
    rw [← List.append_assoc, List.take_append_drop]
  by_cases h0 : pendingLen tag (x.drop (x.length - pendingLen tag x) ++ y) = 0
  · rw [h0]
    by_contra hne
    obtain ⟨q1, q2, q3⟩ := pendingLen_pos_spec tag (x ++ y) hne
    set pp := pendingLen tag (x ++ y) with hpp
    have hlenpp : (tag.take pp).length = pp := by simp; omega
    by_cases hcase : pp ≤ pendingLen tag x + y.length
    · have : tag.take pp <:+ x.drop (x.length - pendingLen tag x) ++ y := by
        apply suffix_of_suffix_append (tag.take pp) (x.take (x.length - pendingLen tag x)) _ ?_ ?_
        · rw [← List.append_assoc, List.take_append_drop]
          exact q3
        · simp
          omega
      have := pendingLen_eq_of_suffix tag _ hnd pp q1 q2 this
      omega
    · -- the candidate suffix would reach back into x past its pending part
      have hylt : y.length < pp := by omega
      obtain ⟨a, ha⟩ := q3
      have halen : a.length + pp = x.length + y.length := by
        have := congrArg List.length ha
        simp [hlenpp] at this
        omega
      have hx : x = a ++ tag.take (pp - y.length) := by
        have hidx : a.length + (pp - y.length) = x.length := by omega
        have h2 : (a ++ tag.take pp).take (a.length + (pp - y.length)) = x := by
          rw [ha, hidx]
          exact List.take_left x y
        rw [List.take_append, List.take_take] at h2
        have hmin : min (pp - y.length) pp = pp - y.length := by omega
        rw [hmin] at h2
        exact h2.symm
      have hsufx : tag.take (pp - y.length) <:+ x := ⟨a, hx.symm⟩
      have := pendingLen_eq_of_suffix tag x hnd (pp - y.length) (by omega) (by omega) hsufx
      omega
  · obtain ⟨q1, q2, q3⟩ := pendingLen_pos_spec tag _ h0
    exact pendingLen_eq_of_suffix tag (x ++ y) hnd _ q1 q2 (q3.trans hsufrem)

theorem scanThink_true_some (buf : List Char) (k : Nat)
    (h : indexOfSub closeTag buf = some k) :
    scanThink true buf =
      (emitSpan (buf.take k) true ++ (['\n'], true) ::
          (scanThink false (buf.drop (k + 8))).1,
        (scanThink false (buf.drop (k + 8))).2) := by
  rw [scanThink]
  split
  · split
    · next k' h' =>
      rw [h] at h'
      injection h' with hk
      subst hk
      rfl
    · next h' =>
      rw [h] at h'
      exact Option.noConfusion h'
  · next h' => simp at h'

theorem scanThink_true_none (buf : List Char)
    (h : indexOfSub closeTag buf = Option.none) :
    scanThink true buf =
      (emitSpan (buf.take (buf.length - pendingLen closeTag buf)) true,
        true, buf.drop (buf.length - pendingLen closeTag buf)) := by
  rw [scanThink]
  split
  · split
    · next k' h' =>
      rw [h] at h'
      exact Option.noConfusion h'
    · next h' => rfl
  · next h' => simp at h'

theorem scanThink_false_some (buf : List Char) (k : Nat)
    (h : indexOfSub openTag buf = some k) :
    scanThink false buf =
      (emitSpan (buf.take k) false ++ (thinkingMarker, false) ::
          (scanThink true (buf.drop (k + 7))).1,
        (scanThink true (buf.drop (k + 7))).2) := by
  rw [scanThink]
  split
  · next h' => simp at h'
  · split
    · next k' h' =>
      rw [h] at h'
      injection h' with hk
      subst hk
      rfl
    · next h' =>
      rw [h] at h'
      exact Option.noConfusion h'

theorem scanThink_false_none (buf : List Char)
    (h : indexOfSub openTag buf = Option.none) :
    scanThink false buf =
      (emitSpan (buf.take (buf.length - pendingLen openTag buf)) false,
        false, buf.drop (buf.length - pendingLen openTag buf)) := by
  rw [scanThink]
  split
  · next h' => simp at h'
  · split
    · next k' h' =>
      rw [h] at h'
      exact Option.noConfusion h'
    · next h' => rfl

theorem take_append_split (x y : List Char) (q i : Nat) (hq : q ≤ x.length) :
    (x ++ y).take (q + i) = x.take q ++ (x.drop q ++ y).take i := by
  have htk : (x.take q).length = q := by simp; omega
  conv_lhs =>
    rw [show x ++ y = x.take q ++ (x.drop q ++ y) from by
      rw [← List.append_assoc, List.take_append_drop]]
  rw [show q + i = (x.take q).length + i from by rw [htk], List.take_append]

theorem drop_append_split (x y : List Char) (q i : Nat) (hq : q ≤ x.length) :
    (x ++ y).drop (q + i) = (x.drop q ++ y).drop i := by
  have htk : (x.take q).length = q := by simp; omega
  conv_lhs =>
    rw [show x ++ y = x.take q ++ (x.drop q ++ y) from by
      rw [← List.append_assoc, List.take_append_drop]]
  rw [show q + i = (x.take q).length + i from by rw [htk], List.drop_append]

theorem tagChars_cons (sp : Span) (l : List Span) :
    tagChars (sp :: l) = sp.1.map (fun c => (c, sp.2)) ++ tagChars l := by
  simp [tagChars]

theorem take_append_of_le (x y : List Char) (n : Nat) (h : n ≤ x.length) :
    (x ++ y).take n = x.take n := by
  rw [List.take_append_eq_append_take, Nat.sub_eq_zero_of_le h, List.take_zero,
    List.append_nil]

theorem drop_append_of_le (x y : List Char) (n : Nat) (h : n ≤ x.length) :
    (x ++ y).drop n = x.drop n ++ y := by
  rw [List.drop_append_eq_append_drop, Nat.sub_eq_zero_of_le h, List.drop_zero]

theorem indexOfSub_nil (tag : List Char) (htag : tag ≠ []) :
    indexOfSub tag [] = Option.none := by
  simp [indexOfSub, List.prefix_nil, htag]

theorem pendingLen_nil (tag : List Char) : pendingLen tag [] = 0 := by
  by_contra h
  obtain ⟨h1, h2, h3⟩ := pendingLen_pos_spec tag [] h
  rw [List.suffix_nil] at h3
  have := congrArg List.length h3
  rw [List.length_take, List.length_nil] at this
  omega

theorem scanThink_nil (inside : Bool) : scanThink inside [] = ([], inside, []) := by
  cases inside with
  | true =>
    rw [scanThink_true_none [] (indexOfSub_nil closeTag closeTag_ne_nil)]
    simp [pendingLen_nil, emitSpan]
  | false =>
    rw [scanThink_false_none [] (indexOfSub_nil openTag openTag_ne_nil)]
    simp [pendingLen_nil, emitSpan]

/-- Incrementality of the scanner: processing `x ++ y` in one call emits
the same flag-tagged characters, and reaches the same state, as processing
`x` and then processing the leftover buffer extended by `y`.  This is the
heart of chunk-boundary independence. -/
theorem scanThink_append_aux : ∀ (n : Nat) (x : List Char), x.length ≤ n →
    ∀ (inside : Bool) (y : List Char),
    tagChars (scanThink inside (x ++ y)).1 =
      tagChars (scanThink inside x).1 ++
        tagChars (scanThink (scanThink inside x).2.1 ((scanThink inside x).2.2 ++ y)).1 ∧
    (scanThink inside (x ++ y)).2 =
      (scanThink (scanThink inside x).2.1 ((scanThink inside x).2.2 ++ y)).2 := by
  intro n
  induction n with
  | zero =>
    intro x hx inside y
    have hxnil : x = [] := List.length_eq_zero.1 (Nat.le_zero.1 hx)
    subst hxnil
    rw [scanThink_nil]
    simp [tagChars]
  | succ n ih =>
    intro x hx inside y
    cases inside with
    | true =>
      cases h : indexOfSub closeTag x with
      | some k =>
        have hb := indexOfSub_bound closeTag x k h
        have hb8 : k + 8 ≤ x.length := by
          have : closeTag.length = 8 := rfl
          omega
        have hxy := indexOfSub_append_of_some closeTag x y k h
        rw [scanThink_true_some x k h, scanThink_true_some (x ++ y) k hxy,
          take_append_of_le x y k (by omega), drop_append_of_le x y (k + 8) hb8]
        dsimp only
        have hih := ih (x.drop (k + 8)) (by simp; omega) false y
        constructor
        · rw [tagChars_append, tagChars_append, tagChars_cons, tagChars_cons, hih.1]
          simp [List.append_assoc]
        · exact hih.2
      | none =>
        have hple := pendingLen_le_length closeTag x
        have hremlen : (x.drop (x.length - pendingLen closeTag x)).length =
            pendingLen closeTag x := by
          simp
          omega
        rw [scanThink_true_none x h]
        dsimp only
        cases h2 : indexOfSub closeTag
            (x.drop (x.length - pendingLen closeTag x) ++ y) with
        | some k =>
          have hxy : indexOfSub closeTag (x ++ y) =
              some (k + (x.length - pendingLen closeTag x)) := by
            rw [indexOfSub_append_none closeTag x y closeTag_ne_nil closeTag_nodup h, h2]
            rfl
          have hbk := indexOfSub_bound closeTag _ k h2
          rw [scanThink_true_some (x ++ y) _ hxy, scanThink_true_some _ k h2]
          have htk : (x ++ y).take (k + (x.length - pendingLen closeTag x)) =
              x.take (x.length - pendingLen closeTag x) ++
                (x.drop (x.length - pendingLen closeTag x) ++ y).take k := by
            rw [Nat.add_comm]
            exact take_append_split x y _ k (by omega)
          have hdr : (x ++ y).drop (k + (x.length - pendingLen closeTag x) + 8) =
              (x.drop (x.length - pendingLen closeTag x) ++ y).drop (k + 8) := by
            rw [show k + (x.length - pendingLen closeTag x) + 8 =
              (x.length - pendingLen closeTag x) + (k + 8) from by omega]
            exact drop_append_split x y _ _ (by omega)
          rw [htk, hdr]
          constructor
          · simp [tagChars_append, tagChars_cons, tagChars_emitSpan, List.append_assoc]
          · rfl
        | none =>
          have hxynone : indexOfSub closeTag (x ++ y) = Option.none := by
            rw [indexOfSub_append_none closeTag x y closeTag_ne_nil closeTag_nodup h, h2]
            rfl
          have hpl := pendingLen_append_none closeTag x y closeTag_ne_nil closeTag_nodup h
          have hp'le := pendingLen_le_length closeTag
            (x.drop (x.length - pendingLen closeTag x) ++ y)
          rw [scanThink_true_none (x ++ y) hxynone, scanThink_true_none _ h2]
          have hidx : (x ++ y).length - pendingLen closeTag (x ++ y) =
              (x.length - pendingLen closeTag x) +
                ((x.drop (x.length - pendingLen closeTag x) ++ y).length -
                  pendingLen closeTag (x.drop (x.length - pendingLen closeTag x) ++ y)) := by
            rw [hpl]
            simp only [List.length_append, hremlen] at hp'le ⊢
            omega
          rw [hidx, take_append_split x y _ _ (by omega), drop_append_split x y _ _ (by omega)]
          constructor
          · simp [tagChars_append, tagChars_emitSpan]
          · rfl
    | false =>
      cases h : indexOfSub openTag x with
      | some k =>
        have hb := indexOfSub_bound openTag x k h
        have hb7 : k + 7 ≤ x.length := by
          have : openTag.length = 7 := rfl
          omega
        have hxy := indexOfSub_append_of_some openTag x y k h
        rw [scanThink_false_some x k h, scanThink_false_some (x ++ y) k hxy,
          take_append_of_le x y k (by omega), drop_append_of_le x y (k + 7) hb7]
        dsimp only
        have hih := ih (x.drop (k + 7)) (by simp; omega) true y
        constructor
        · rw [tagChars_append, tagChars_append, tagChars_cons, tagChars_cons, hih.1]
          simp [List.append_assoc]
        · exact hih.2
      | none =>
        have hple := pendingLen_le_length openTag x
        have hremlen : (x.drop (x.length - pendingLen openTag x)).length =
            pendingLen openTag x := by
          simp
          omega
        rw [scanThink_false_none x h]
        dsimp only
        cases h2 : indexOfSub openTag
            (x.drop (x.length - pendingLen openTag x) ++ y) with
        | some k =>
          have hxy : indexOfSub openTag (x ++ y) =
              some (k + (x.length - pendingLen openTag x)) := by
            rw [indexOfSub_append_none openTag x y openTag_ne_nil openTag_nodup h, h2]
            rfl
          have hbk := indexOfSub_bound openTag _ k h2
          rw [scanThink_false_some (x ++ y) _ hxy, scanThink_false_some _ k h2]
          have htk : (x ++ y).take (k + (x.length - pendingLen openTag x)) =
              x.take (x.length - pendingLen openTag x) ++
                (x.drop (x.length - pendingLen openTag x) ++ y).take k := by
            rw [Nat.add_comm]
            exact take_append_split x y _ k (by omega)
          have hdr : (x ++ y).drop (k + (x.length - pendingLen openTag x) + 7) =
              (x.drop (x.length - pendingLen openTag x) ++ y).drop (k + 7) := by
            rw [show k + (x.length - pendingLen openTag x) + 7 =
              (x.length - pendingLen openTag x) + (k + 7) from by omega]
            exact drop_append_split x y _ _ (by omega)
          rw [htk, hdr]
          constructor
          · simp [tagChars_append, tagChars_cons, tagChars_emitSpan, List.append_assoc]
          · rfl
        | none =>
          have hxynone : indexOfSub openTag (x ++ y) = Option.none := by
            rw [indexOfSub_append_none openTag x y openTag_ne_nil openTag_nodup h, h2]
            rfl
          have hpl := pendingLen_append_none openTag x y openTag_ne_nil openTag_nodup h
          have hp'le := pendingLen_le_length openTag
            (x.drop (x.length - pendingLen openTag x) ++ y)
          rw [scanThink_false_none (x ++ y) hxynone, scanThink_false_none _ h2]
          have hidx : (x ++ y).length - pendingLen openTag (x ++ y) =
              (x.length - pendingLen openTag x) +
                ((x.drop (x.length - pendingLen openTag x) ++ y).length -
                  pendingLen openTag (x.drop (x.length - pendingLen openTag x) ++ y)) := by
            rw [hpl]
            simp only [List.length_append, hremlen] at hp'le ⊢
            omega
          rw [hidx, take_append_split x y _ _ (by omega), drop_append_split x y _ _ (by omega)]
          constructor
          · simp [tagChars_append, tagChars_emitSpan]
          · rfl

/-- `scanThink_append_aux` at the natural length bound. -/
theorem scanThink_append (x : List Char) (inside : Bool) (y : List Char) :
    tagChars (scanThink inside (x ++ y)).1 =
      tagChars (scanThink inside x).1 ++
        tagChars (scanThink (scanThink inside x).2.1 ((scanThink inside x).2.2 ++ y)).1 ∧
    (scanThink inside (x ++ y)).2 =
      (scanThink (scanThink inside x).2.1 ((scanThink inside x).2.2 ++ y)).2 :=
  scanThink_append_aux x.length x (le_refl _) inside y

theorem indexOfSub_none_of_short (tag s : List Char) (h : s.length < tag.length) :
    indexOfSub tag s = Option.none := by
  rw [indexOfSub_eq_none_iff]
  intro j hj
  have := hj.length_le
  simp at this
  omega

theorem drop_sub_length_of_suffix (suf buf : List Char) (h : suf <:+ buf) :
    buf.drop (buf.length - suf.length) = suf := by
  obtain ⟨u, rfl⟩ := h
  have heq : (u ++ suf).length - suf.length = u.length := by simp
  rw [heq, List.drop_left]

/-- A pure marker prefix is inert: scanning it emits nothing and keeps it
buffered. -/
theorem scanThink_pending_inert (tag : List Char) (p : Nat) (inside : Bool)
    (htag8 : tag = closeTag ∧ inside = true ∨ tag = openTag ∧ inside = false)
    (hp1 : 1 ≤ p) (hp2 : p < tag.length) :
    scanThink inside (tag.take p) = ([], inside, tag.take p) := by
  have hlen : (tag.take p).length = p := by simp; omega
  have hshort : (tag.take p).length < tag.length := by omega
  have hpend : pendingLen tag (tag.take p) = p := by
    rcases htag8 with ⟨rfl, _⟩ | ⟨rfl, _⟩
    · exact pendingLen_eq_of_suffix closeTag _ closeTag_nodup p hp1 hp2 (List.suffix_refl _)
    · exact pendingLen_eq_of_suffix openTag _ openTag_nodup p hp1 hp2 (List.suffix_refl _)
  rcases htag8 with ⟨rfl, rfl⟩ | ⟨rfl, rfl⟩
  · rw [scanThink_true_none _ (indexOfSub_none_of_short closeTag _ hshort)]
    rw [hpend, hlen]
    simp [emitSpan]
  · rw [scanThink_false_none _ (indexOfSub_none_of_short openTag _ hshort)]
    rw [hpend, hlen]
    simp [emitSpan]

/-- The scanner's leftover state is quiescent: re-scanning the leftover
buffer emits nothing and leaves the state unchanged. -/
theorem scanThink_quiescent_aux : ∀ (n : Nat) (buf : List Char), buf.length ≤ n →
    ∀ inside : Bool,
    scanThink (scanThink inside buf).2.1 (scanThink inside buf).2.2 =
      ([], (scanThink inside buf).2) := by
  intro n
  induction n with
  | zero =>
    intro buf hbuf inside
    have : buf = [] := List.length_eq_zero.1 (Nat.le_zero.1 hbuf)
    subst this
    rw [scanThink_nil]
    exact scanThink_nil inside
  | succ n ih =>
    intro buf hbuf inside
    have hnonecase : ∀ (tag : List Char) (hside : tag = closeTag ∧ inside = true ∨
        tag = openTag ∧ inside = false),
        pendingLen tag buf ≤ buf.length →
        (pendingLen tag buf ≠ 0 → tag.take (pendingLen tag buf) <:+ buf ∧
          1 ≤ pendingLen tag buf ∧ pendingLen tag buf < tag.length) →
        scanThink inside (buf.drop (buf.length - pendingLen tag buf)) =
          ([], inside, buf.drop (buf.length - pendingLen tag buf)) := by
      intro tag hside hple hpos
      by_cases h0 : pendingLen tag buf = 0
      · rw [h0, Nat.sub_zero, List.drop_length]
        exact scanThink_nil inside
      · obtain ⟨hsuf, hp1, hp2⟩ := hpos h0
        have hlen : (tag.take (pendingLen tag buf)).length = pendingLen tag buf := by
          simp
          omega
        have hrem : buf.drop (buf.length - pendingLen tag buf) =
            tag.take (pendingLen tag buf) := by
          have := drop_sub_length_of_suffix (tag.take (pendingLen tag buf)) buf hsuf
          rw [hlen] at this
          exact this
        rw [hrem]
        exact scanThink_pending_inert tag _ inside hside hp1 hp2
    cases inside with
    | true =>
      cases h : indexOfSub closeTag buf with
      | some k =>
        have hb := indexOfSub_bound closeTag buf k h
        have hb8 : closeTag.length = 8 := rfl
        rw [scanThink_true_some buf k h]
        exact ih (buf.drop (k + 8)) (by simp; omega) false
      | none =>
        rw [scanThink_true_none buf h]
        exact hnonecase closeTag (Or.inl ⟨rfl, rfl⟩) (pendingLen_le_length _ _)
          (fun h0 => by
            obtain ⟨a, b, c⟩ := pendingLen_pos_spec closeTag buf h0
            exact ⟨c, a, b⟩)
    | false =>
      cases h : indexOfSub openTag buf with
      | some k =>
        have hb := indexOfSub_bound openTag buf k h
        have hb7 : openTag.length = 7 := rfl
        rw [scanThink_false_some buf k h]
        exact ih (buf.drop (k + 7)) (by simp; omega) true
      | none =>
        rw [scanThink_false_none buf h]
        exact hnonecase openTag (Or.inr ⟨rfl, rfl⟩) (pendingLen_le_length _ _)
          (fun h0 => by
            obtain ⟨a, b, c⟩ := pendingLen_pos_spec openTag buf h0
            exact ⟨c, a, b⟩)

theorem scanThink_quiescent (inside : Bool) (buf : List Char) :
    scanThink (scanThink inside buf).2.1 (scanThink inside buf).2.2 =
      ([], (scanThink inside buf).2) :=
  scanThink_quiescent_aux buf.length buf (le_refl _) inside

/-- Feeding a chunk list from a quiescent state emits, at the flag-tagged
character level, exactly what one scan of the concatenation emits, and ends
in the same state. -/
theorem feedChunks_spec : ∀ (chunks : List (List Char)) (inside : Bool) (buf : List Char),
    scanThink inside buf = ([], inside, buf) →
    tagChars (feedChunks ⟨inside, buf⟩ chunks).1 =
      tagChars (scanThink inside (buf ++ chunks.flatten)).1 ∧
    (feedChunks ⟨inside, buf⟩ chunks).2 =
      ⟨(scanThink inside (buf ++ chunks.flatten)).2.1,
        (scanThink inside (buf ++ chunks.flatten)).2.2⟩ := by
  intro chunks
  induction chunks with
  | nil =>
    intro inside buf hq
    simp [feedChunks, hq, tagChars]
  | cons c cs ih =>
    intro inside buf hq
    have happ := scanThink_append (buf ++ c) inside cs.flatten
    have hqS := scanThink_quiescent inside (buf ++ c)
    have hih := ih (scanThink inside (buf ++ c)).2.1 (scanThink inside (buf ++ c)).2.2
      (by rw [hqS])
    constructor
    · show tagChars ((scanThink inside (buf ++ c)).1 ++
          (feedChunks ⟨(scanThink inside (buf ++ c)).2.1,
            (scanThink inside (buf ++ c)).2.2⟩ cs).1) = _
      rw [tagChars_append, hih.1, ← happ.1]
      rw [show buf ++ (c :: cs).flatten = (buf ++ c) ++ cs.flatten from by
        simp [List.flatten]]
    · show (feedChunks ⟨(scanThink inside (buf ++ c)).2.1,
          (scanThink inside (buf ++ c)).2.2⟩ cs).2 = _
      rw [hih.2]
      rw [show buf ++ (c :: cs).flatten = (buf ++ c) ++ cs.flatten from by
        simp [List.flatten]]
      rw [happ.2]

theorem openTag_borderless : ∀ r, 1 ≤ r → r < openTag.length →
    openTag.drop r ≠ openTag.take (openTag.length - r) := by decide

theorem closeTag_borderless : ∀ r, 1 ≤ r → r < closeTag.length →
    closeTag.drop r ≠ closeTag.take (closeTag.length - r) := by decide

/-- In `P ++ tag ++ z` with no occurrence of the (borderless) marker inside
`P`, the first occurrence of the marker starts exactly at `P.length`. -/
theorem indexOfSub_boundary (tag P z : List Char)
    (hbord : ∀ r, 1 ≤ r → r < tag.length → tag.drop r ≠ tag.take (tag.length - r))
    (hPfree : ¬ tag <:+: P) :
    indexOfSub tag (P ++ (tag ++ z)) = some P.length := by
  apply (indexOfSub_eq_some_iff tag _ P.length).2
  constructor
  · rw [List.drop_left]
    exact List.prefix_append tag z
  · intro j hj hocc
    rw [drop_append_of_le P (tag ++ z) j (by omega)] at hocc
    have hrlen : (P.drop j).length = P.length - j := by simp
    by_cases hcase : tag.length ≤ P.length - j
    · have hpx : tag <+: P.drop j :=
        prefix_of_prefix_append tag (P.drop j) (tag ++ z) hocc (by omega)
      exact hPfree ((infix_iff_exists_drop tag P).2 ⟨j, hpx⟩)
    · have hr1 : 1 ≤ P.length - j := by omega
      have hr2 : P.length - j < tag.length := by omega
      have htake := List.prefix_iff_eq_take.1 hocc
      rw [List.take_append_eq_append_take, List.take_of_length_le (by omega)] at htake
      have hA : tag.take (P.length - j) = P.drop j := by
        rw [htake, ← hrlen]
        exact List.take_left _ _
      rw [hrlen] at htake
      rw [take_append_of_le tag z _ (by omega)] at htake
      rw [← hA] at htake
      have htd : tag.take (P.length - j) ++ tag.drop (P.length - j) = tag :=
        List.take_append_drop _ tag
      have hcancel : tag.drop (P.length - j) = tag.take (tag.length - (P.length - j)) := by
        have : tag.take (P.length - j) ++ tag.drop (P.length - j) =
            tag.take (P.length - j) ++ tag.take (tag.length - (P.length - j)) := by
          rw [htd]
          exact htake
        exact List.append_cancel_left this
      exact hbord _ hr1 hr2 hcancel

/-- A well-formed stream: plain/reasoning pairs, each pair rendered as
`plain ++ "<think>" ++ reasoning ++ "</think>"`, followed by a plain tail. -/
def renderInput (pairs : List (List Char × List Char)) (tail : List Char) : List Char :=
  (pairs.map (fun pr => pr.1 ++ openTag ++ pr.2 ++ closeTag)).flatten ++ tail

/-- The expected flag-tagged output for a well-formed stream: plain parts
flagged visible, each open marker replaced by the `"[thinking] "` visual
marker (flagged visible), reasoning parts flagged reasoning, each close
marker replaced by a newline flagged reasoning, the tail visible. -/
def expectedTagChars (pairs : List (List Char × List Char)) (tail : List Char) :
    List (Char × Bool) :=
  (pairs.map (fun pr =>
    pr.1.map (fun c => (c, false)) ++ thinkingMarker.map (fun c => (c, false)) ++
      pr.2.map (fun c => (c, true)) ++ [('\n', true)])).flatten ++
    tail.map (fun c => (c, false))

/-- One-shot correctness of the scanner on a well-formed stream, flush
included. -/
theorem scanThink_wellFormed : ∀ (pairs : List (List Char × List Char)) (tail : List Char),
    (∀ pr ∈ pairs, ¬ openTag <:+: pr.1 ∧ ¬ closeTag <:+: pr.2) →
    ¬ openTag <:+: tail →
    tagChars (scanThink false (renderInput pairs tail)).1 ++
      tagChars (flushSpans ⟨(scanThink false (renderInput pairs tail)).2.1,
        (scanThink false (renderInput pairs tail)).2.2⟩) =
      expectedTagChars pairs tail := by
  intro pairs
  induction pairs with
  | nil =>
    intro tail _ htail
    have hrender : renderInput [] tail = tail := by simp [renderInput]
    rw [hrender]
    rw [scanThink_false_none tail (indexOfSub_eq_none_of_marker_free openTag tail htail)]
    rw [expectedTagChars]
    simp [flushSpans, tagChars_emitSpan, ← List.map_append]
  | cons pr rest ih =>
    intro tail hfree htail
    obtain ⟨hP, hT⟩ := hfree pr (List.mem_cons_self pr rest)
    have hrest : ∀ pr' ∈ rest, ¬ openTag <:+: pr'.1 ∧ ¬ closeTag <:+: pr'.2 :=
      fun pr' h => hfree pr' (List.mem_cons_of_mem pr h)
    have hrender : renderInput (pr :: rest) tail =
        pr.1 ++ (openTag ++ (pr.2 ++ (closeTag ++ renderInput rest tail))) := by
      simp [renderInput, List.append_assoc]
    rw [hrender]
    have hocc1 := indexOfSub_boundary openTag pr.1
      (pr.2 ++ (closeTag ++ renderInput rest tail)) openTag_borderless hP
    rw [scanThink_false_some _ _ hocc1]
    have htake1 : (pr.1 ++ (openTag ++ (pr.2 ++ (closeTag ++ renderInput rest tail)))).take
        pr.1.length = pr.1 := List.take_left _ _
    have hdrop1 : (pr.1 ++ (openTag ++ (pr.2 ++ (closeTag ++ renderInput rest tail)))).drop
        (pr.1.length + 7) = pr.2 ++ (closeTag ++ renderInput rest tail) := by
      rw [List.drop_append]
      rfl
    rw [htake1, hdrop1]
    have hocc2 := indexOfSub_boundary closeTag pr.2 (renderInput rest tail)
      closeTag_borderless hT
    rw [scanThink_true_some _ _ hocc2]
    have htake2 : (pr.2 ++ (closeTag ++ renderInput rest tail)).take pr.2.length = pr.2 :=
      List.take_left _ _
    have hdrop2 : (pr.2 ++ (closeTag ++ renderInput rest tail)).drop (pr.2.length + 8) =
        renderInput rest tail := by
      rw [List.drop_append]
      rfl
    rw [htake2, hdrop2]
    have hihr := ih tail hrest htail
    rw [expectedTagChars]
    simp only [List.map_cons, List.flatten_cons, List.append_assoc]
    rw [expectedTagChars] at hihr
    simp only [tagChars_append, tagChars_cons, tagChars_emitSpan, List.append_assoc]
    simp only [tagChars_append, tagChars_cons, tagChars_emitSpan, List.append_assoc] at hihr
    rw [hihr]
    simp

/-- A streamed splitter run equals, at the flag-tagged character level, the
one-shot scan of the concatenated stream followed by the flush. -/
theorem runSplitter_tagChars (chunks : List (List Char)) :
    tagChars (runSplitter chunks) =
      tagChars (scanThink false chunks.flatten).1 ++
        tagChars (flushSpans ⟨(scanThink false chunks.flatten).2.1,
          (scanThink false chunks.flatten).2.2⟩) := by
  have h := feedChunks_spec chunks false [] (scanThink_nil false)
  simp only [List.nil_append] at h
  show tagChars ((feedChunks ⟨false, []⟩ chunks).1 ++
    flushSpans (feedChunks ⟨false, []⟩ chunks).2) = _
  rw [tagChars_append, h.1, h.2]

/-- Claim C6 (amended): for every input consisting of zero or more
well-formed `<think>`/`</think>` pairs (no marker occurring inside a
plain or reasoning segment) and every way of splitting it into chunks,
the emitted output — as flag-tagged text — reproduces the original input
with each open marker replaced by the visual token `"[thinking] "`
(flagged non-reasoning) and each close marker replaced by a newline
(flagged reasoning); exactly the spans between open and close markers are
flagged as reasoning, and the result is independent of the chunk
boundaries, since the right-hand side depends only on the concatenation. -/
theorem runSplitter_roundtrip (pairs : List (List Char × List Char)) (tail : List Char)
    (chunks : List (List Char))
    (hpairs : ∀ pr ∈ pairs, ¬ openTag <:+: pr.1 ∧ ¬ closeTag <:+: pr.2)
    (htail : ¬ openTag <:+: tail)
    (hchunks : chunks.flatten = renderInput pairs tail) :
    tagChars (runSplitter chunks) = expectedTagChars pairs tail := by
  rw [runSplitter_tagChars, hchunks]
  exact scanThink_wellFormed pairs tail hpairs htail

/-- A chunking of `"a<think>b</think>c"` that splits both markers across
chunk boundaries. -/
def demoChunks : List (List Char) :=
  [['a', '<', 't', 'h'], ['i', 'n', 'k', '>', 'b', '<', '/', 't', 'h'],
    ['i', 'n', 'k', '>', 'c']]

/-- Witness for the amended C6 at a concrete input: one marker pair, plain
prefix `"a"`, reasoning `"b"`, tail `"c"`, markers split across chunks. -/
theorem runSplitter_roundtrip_witness :
    (∀ pr ∈ [((['a'], ['b']) : List Char × List Char)],
      ¬ openTag <:+: pr.1 ∧ ¬ closeTag <:+: pr.2) ∧
    ¬ openTag <:+: ['c'] ∧
    demoChunks.flatten = renderInput [(['a'], ['b'])] ['c'] ∧
    tagChars (runSplitter demoChunks) = expectedTagChars [(['a'], ['b'])] ['c'] :=
  ⟨by decide, by decide, by decide,
    runSplitter_roundtrip [(['a'], ['b'])] ['c'] demoChunks (by decide) (by decide)
      (by decide)⟩

end Ephileo
